import Mathlib

/-
Verification of the augmented red-black interval tree in
src/include/algo/interval_tree.hpp.

The C++ code is a pointer-based red-black tree with parent pointers.  We embed
it shallowly: a tree is an inductive value carrying the `max_` augmentation and
the `is_red_` flag in every node, and a position inside a tree ("a node handle")
is a zipper path from that node up to the root.  Parent-pointer walks in the
C++ loops become structural recursion on the path; `transplant` and the child
re-linking done by the rotations become plugging a subtree back into a path.
Machine `int`s are modelled as `Int`; the single use of
`std::numeric_limits<int>::min()` (interval_tree.hpp line 180) is the explicit
constant `INTMIN`.
-/

namespace ITree

/-- The `Interval` class (interval_tree.hpp lines 12-24): a pair of ints. -/
structure Interval where
  low : Int
  high : Int
deriving DecidableEq, Repr

/-- `Interval::overlap` (lines 14-16): `low_ <= other.high_ && other.low_ <= high_`. -/
def Interval.overlap (a b : Interval) : Bool :=
  decide (a.low ≤ b.high) && decide (b.low ≤ a.high)

/-- `Interval::key` (lines 18-20): the low endpoint. -/
def Interval.key (a : Interval) : Int := a.low

/-- `std::numeric_limits<int>::min()` (used at interval_tree.hpp line 180). -/
def INTMIN : Int := -2147483648

/-- An `IntervalTreeNode` graph reachable from a node through `left_`/`right_`
(lines 26-36): each node carries its interval, its `max_` field and its
`is_red_` flag.  `nil` is the absent child (`nullptr`). -/
inductive Tree where
  | nil : Tree
  | node (l : Tree) (iv : Interval) (mx : Int) (red : Bool) (r : Tree) : Tree
deriving DecidableEq, Repr

/-- A path from a node position up to the root: the zipper encoding of the
`parent_` chain.  `inl` means the position is the left child of a parent with
the recorded fields and right sibling; `inr` means it is the right child. -/
inductive Path where
  | root : Path
  | inl (iv : Interval) (mx : Int) (red : Bool) (sib : Tree) (rest : Path) : Path
  | inr (sib : Tree) (iv : Interval) (mx : Int) (red : Bool) (rest : Path) : Path
deriving DecidableEq, Repr

/-- Rebuild the whole tree from a subtree sitting at the position described by
the path (the inverse of following child pointers down from `root_`). -/
def Tree.plug : Tree → Path → Tree
  | n, .root => n
  | n, .inl iv mx red sib q => Tree.plug (.node n iv mx red sib) q
  | n, .inr sib iv mx red q => Tree.plug (.node sib iv mx red n) q

/-- Number of frames of a path (the depth of the position). -/
def Path.len : Path → Nat
  | .root => 0
  | .inl _ _ _ _ q => q.len + 1
  | .inr _ _ _ _ q => q.len + 1

/-- In-order list of the stored intervals (`IntervalTree::inorder`,
lines 391-398: left subtree, the node's interval, right subtree). -/
def Tree.inorderL : Tree → List Interval
  | .nil => []
  | .node l iv _ _ r => Tree.inorderL l ++ iv :: Tree.inorderL r

/-- The keys (low endpoints) in in-order. -/
def keysL (t : Tree) : List Int := t.inorderL.map Interval.low

/-- Set the root node's color to black (`x->is_red_ = false`). -/
def Tree.setBlack : Tree → Tree
  | .nil => .nil
  | .node l iv mx _ r => .node l iv mx false r

/-- One step of the rotation max recomputation (lines 351-356 and 378-383):
`if (child && child->max_ > m) m = child->max_`. -/
def childMaxGt (m : Int) : Tree → Int
  | .nil => m
  | .node _ _ cm _ _ => if m < cm then cm else m

/-- The rotations' recomputation of `x->max_` (lines 350-356 / 377-383):
start from the node's own high, then look at left child, then right child. -/
def recompMax (h : Int) (l r : Tree) : Int := childMaxGt (childMaxGt h l) r

/-- One step of the remove loop's max recomputation (lines 195-200):
`if (child) m = std::max(m, child->max_)`. -/
def childMaxStd (m : Int) : Tree → Int
  | .nil => m
  | .node _ _ cm _ _ => max m cm

/-- The remove loop's recomputation of `i->max_` (lines 194-200): the node's
own high, then `std::max` with each present child's max. -/
def maxHLR (h : Int) (l r : Tree) : Int := childMaxStd (childMaxStd h l) r

/-- `IntervalTree::left_rotate` (lines 332-357) acting on the subtree rooted at
`x`: promote the right child `y`, hand `y->left_` to `x`, then set
`y->max_ = x->max_` and recompute `x->max_` from its own high and its new
children.  Re-linking `x->parent_` is plugging the result into `x`'s path.
A call with `x` nil or `x->right_` nil would dereference null in the C++
(never done by the code); those cases return the argument unchanged. -/
def rotL : Tree → Tree
  | .node a xi xm xc (.node b yi _ yc c) =>
      .node (.node a xi (recompMax xi.high a b) xc b) yi xm yc c
  | t => t

/-- `IntervalTree::right_rotate` (lines 359-384), mirror of `rotL`. -/
def rotR : Tree → Tree
  | .node (.node a yi _ yc b) xi xm xc c =>
      .node a yi xm yc (.node b xi (recompMax xi.high b c) xc c)
  | t => t

/-- The descent loop of `IntervalTree::insert` (lines 88-107): walk down
comparing low endpoints (strictly-less goes left, ties go right), bump every
visited node's `max_` with `std::max`, and link a new red node with
`max_ = high` at the empty position found.  Returns the new node and its path. -/
def insLocAux : Tree → Interval → Path → Tree × Path
  | .nil, iv, p => (.node .nil iv iv.high true .nil, p)
  | .node l niv nmx nc r, iv, p =>
      let m2 := max nmx iv.high
      if iv.low < niv.low then insLocAux l iv (.inl niv m2 nc r p)
      else insLocAux r iv (.inr l niv m2 nc p)

/-- The same descent (lines 88-107) written as a plain recursive tree
transformation; proven to plug to the same tree as `insLocAux`. -/
def insNaive : Tree → Interval → Tree
  | .nil, iv => .node .nil iv iv.high true .nil
  | .node l niv nmx nc r, iv =>
      if iv.low < niv.low then .node (insNaive l iv) niv (max nmx iv.high) nc r
      else .node l niv (max nmx iv.high) nc (insNaive r iv)

/-- `IntervalTree::rb_insert_fixup` (lines 112-153).  The argument is the
current `node` (a subtree) together with its path.  The loop runs while the
parent exists and is red; the head frame of the path is the parent, the next
frame the grandparent, whose other child is the uncle.  An uncle-red step
recolors and moves two frames up; the other cases recolor, rotate and leave
the loop; afterwards the root is unconditionally blackened.  (When the parent
is red but has no grandparent frame, line 114 would dereference null in the
C++; that state is unreachable from the public operations, and the model exits
the loop there.) -/
def insFix : Tree → Path → Tree
  | n, .root => n.setBlack
  | n, .inl pIv pMx pRed sib q =>
    if pRed then
      match q with
      | .root => (Tree.plug n (.inl pIv pMx pRed sib .root)).setBlack
      | .inl gIv gMx _ gU gq =>
        -- parent is left child of grandparent; node is left child: outer case
        match gU with
        | .node ul uiv umx true ur =>
            insFix (.node (.node n pIv pMx false sib) gIv gMx true
              (.node ul uiv umx false ur)) gq
        | _ =>
            (Tree.plug (rotR (.node (.node n pIv pMx false sib) gIv gMx true gU))
              gq).setBlack
      | .inr gL gIv gMx _ gq =>
        -- parent is right child of grandparent; node is left child: inner case
        match gL with
        | .node ul uiv umx true ur =>
            insFix (.node (.node ul uiv umx false ur) gIv gMx true
              (.node n pIv pMx false sib)) gq
        | _ =>
            (Tree.plug (rotL (.node gL gIv gMx true
              ((rotR (.node n pIv pMx true sib)).setBlack))) gq).setBlack
    else (Tree.plug n (.inl pIv pMx pRed sib q)).setBlack
  | n, .inr sib pIv pMx pRed q =>
    if pRed then
      match q with
      | .root => (Tree.plug n (.inr sib pIv pMx pRed .root)).setBlack
      | .inl gIv gMx _ gU gq =>
        -- parent is left child of grandparent; node is right child: inner case
        match gU with
        | .node ul uiv umx true ur =>
            insFix (.node (.node sib pIv pMx false n) gIv gMx true
              (.node ul uiv umx false ur)) gq
        | _ =>
            (Tree.plug (rotR (.node ((rotL (.node sib pIv pMx true n)).setBlack)
              gIv gMx true gU)) gq).setBlack
      | .inr gL gIv gMx _ gq =>
        -- parent is right child of grandparent; node is right child: outer case
        match gL with
        | .node ul uiv umx true ur =>
            insFix (.node (.node ul uiv umx false ur) gIv gMx true
              (.node sib pIv pMx false n)) gq
        | _ =>
            (Tree.plug (rotL (.node gL gIv gMx true (.node sib pIv pMx false n)))
              gq).setBlack
    else (Tree.plug n (.inr sib pIv pMx pRed q)).setBlack

/-- `IntervalTree::insert` (lines 83-110): descend, link the new red node,
then run the insert fixup from it. -/
def insertT (t : Tree) (iv : Interval) : Tree :=
  let np := insLocAux t iv .root
  insFix np.1 np.2

/-- `IntervalTree::search` (lines 155-165): walk down from the root; stop at
the first node whose interval overlaps the query; otherwise go left when the
left child exists and its `max_` reaches the query's low endpoint, else go
right; running off the tree returns null (`none`). -/
def search : Tree → Interval → Option Interval
  | .nil, _ => none
  | .node l iv _ _ r, q =>
    if iv.overlap q then some iv
    else match l with
      | .node ll liv lmx lc lr =>
          if q.low ≤ lmx then search (.node ll liv lmx lc lr) q else search r q
      | .nil => search r q

/-- `IntervalTree::rb_delete_fixup` (lines 243-310).  The argument is the
extra-black position `x` (a subtree, possibly `nil` - but note the loop guard
`while (x && ...)` skips the whole loop when `x` is null) and its path.  The
head frame of the path is `x->parent_`, carrying the sibling `w`.
The loop body is transcribed case by case:
* `w` null: `x = x->parent_; continue` (lines 247-250 / 277-280);
* case 1 (`w` red, lines 251-256): recolor, rotate at the parent, refresh `w`
  to the near nephew, and fall through - in the fall-through, the parent is
  now red, so a case-2 step there makes `x` red and the next loop check exits;
  that exit (`x->is_red_ = false` at line 308) is written out in place;
* case 2 (both nephews absent-or-black, lines 257-261): redden `w` and move up;
* case 3 (far nephew absent-or-black, near nephew red, lines 263-268):
  recolor and rotate at `w`, producing the case-4 shape;
* case 4 (far nephew red, lines 269-273): recolor, rotate at the parent, set
  `x = root_`, which exits the loop and blackens the root.
After the loop, a non-null `x` is blackened (lines 307-309). -/
def delFix : Tree → Path → Tree
  | x, .root => x.setBlack
  | .nil, p => Tree.plug .nil p
  | .node xl xiv xmx true xr, p => Tree.plug (.node xl xiv xmx false xr) p
  | .node xl xiv xmx false xr, .inl pIv pMx pRed w q =>
    -- x is a black left child and not the root; w is the right sibling
    let x : Tree := .node xl xiv xmx false xr
    match w with
    | .nil => delFix (.node x pIv pMx pRed .nil) q
    | .node wl wiv wmx wred wr =>
      if wred then
        -- case 1: left-rotate at the (now red) parent; the new sibling is wl
        let pMx2 := recompMax pIv.high x wl
        let p1 : Path := .inl wiv pMx false wr q
        match wl with
        | .nil =>
            -- new sibling absent (line 257 `!w`): move to the red parent,
            -- the loop check fails and the parent is blackened (line 308)
            Tree.plug (.node x pIv pMx2 false .nil) p1
        | .node al aiv amx _ ar =>
          match ar with
          | .node bl biv bmx true br =>
              -- case 4 after case 1 (far nephew red; parent is red)
              (Tree.plug (rotL (.node x pIv pMx2 false
                (.node al aiv amx true (.node bl biv bmx false br)))) p1).setBlack
          | _ =>
            match al with
            | .node bl biv bmx true br =>
                -- case 3 then case 4 after case 1 (near nephew red):
                -- blacken it, redden the sibling, right-rotate the sibling,
                -- then the case-4 recoloring and parent rotation, composed
                (Tree.plug (rotL (.node x pIv pMx2 false
                  (.node bl biv amx true
                    (.node br aiv (recompMax aiv.high br ar) false ar)))) p1).setBlack
            | _ =>
                -- case 2 after case 1: redden the sibling, move to the red
                -- parent; the loop check fails and the parent is blackened
                Tree.plug (.node x pIv pMx2 false (.node al aiv amx true ar)) p1
      else
        match wr with
        | .node bl biv bmx true br =>
            -- case 4 (far nephew red): sibling takes the parent color, the
            -- parent and the far nephew turn black, left-rotate at the parent
            (Tree.plug (rotL (.node x pIv pMx false
              (.node wl wiv wmx pRed (.node bl biv bmx false br)))) q).setBlack
        | _ =>
          match wl with
          | .node bl biv bmx true br =>
              -- case 3 then case 4 (near nephew red, far nephew absent/black)
              (Tree.plug (rotL (.node x pIv pMx false
                (.node bl biv wmx pRed
                  (.node br wiv (recompMax wiv.high br wr) false wr)))) q).setBlack
          | _ =>
              -- case 2 (both nephews absent/black): redden sibling, move up
              delFix (.node x pIv pMx pRed (.node wl wiv wmx true wr)) q
  | .node xl xiv xmx false xr, .inr w pIv pMx pRed q =>
    -- x is a black right child and not the root; w is the left sibling
    let x : Tree := .node xl xiv xmx false xr
    match w with
    | .nil => delFix (.node .nil pIv pMx pRed x) q
    | .node wl wiv wmx wred wr =>
      if wred then
        -- mirror case 1: right-rotate at the (now red) parent; new sibling wr
        let pMx2 := recompMax pIv.high wr x
        let p1 : Path := .inr wl wiv pMx false q
        match wr with
        | .nil =>
            Tree.plug (.node .nil pIv pMx2 false x) p1
        | .node al aiv amx _ ar =>
          match al with
          | .node bl biv bmx true br =>
              -- mirror case 4 after case 1 (far nephew red; parent is red)
              (Tree.plug (rotR (.node
                (.node (.node bl biv bmx false br) aiv amx true ar)
                pIv pMx2 false x)) p1).setBlack
          | _ =>
            match ar with
            | .node bl biv bmx true br =>
                -- mirror case 3 then case 4 after case 1, composed
                (Tree.plug (rotR (.node
                  (.node (.node al aiv (recompMax aiv.high al bl) false bl)
                    biv amx true br)
                  pIv pMx2 false x)) p1).setBlack
            | _ =>
                Tree.plug (.node (.node al aiv amx true ar) pIv pMx2 false x) p1
      else
        match wl with
        | .node bl biv bmx true br =>
            -- mirror case 4 (far nephew red)
            (Tree.plug (rotR (.node
              (.node (.node bl biv bmx false br) wiv wmx pRed wr)
              pIv pMx false x)) q).setBlack
        | _ =>
          match wr with
          | .node bl biv bmx true br =>
              -- mirror case 3 then case 4 (near nephew red, far nephew
              -- absent/black)
              (Tree.plug (rotR (.node
                (.node (.node wl wiv (recompMax wiv.high wl bl) false bl)
                  biv wmx pRed br)
                pIv pMx false x)) q).setBlack
          | _ =>
              -- mirror case 2: redden sibling, move up
              delFix (.node (.node wl wiv wmx true wr) pIv pMx pRed x) q

/-- `IntervalTree::minimum` (lines 312-317): the interval of the leftmost node. -/
def minIv : Tree → Interval
  | .nil => ⟨0, 0⟩
  | .node .nil iv _ _ _ => iv
  | .node (.node a b c d e) _ _ _ _ => minIv (.node a b c d e)

/-- The color of the leftmost node (read as `y_original_color` at line 219). -/
def minRed : Tree → Bool
  | .nil => true
  | .node .nil _ _ red _ => red
  | .node (.node a b c d e) _ _ _ _ => minRed (.node a b c d e)

/-- Splice the leftmost node out of a subtree, replacing it by its right child
(the `transplant(y, y->right_)` of lines 221-229): returns the replacement
child `x` together with its path in the resulting tree, given the path of the
subtree's root. -/
def delMin : Tree → Path → Tree × Path
  | .nil, p => (.nil, p)
  | .node .nil _ _ _ r, p => (r, p)
  | .node (.node a b c d e) iv mx col r, p =>
      delMin (.node a b c d e) (.inl iv mx col r p)

/-- The part of the max-recomputation loop of `remove` (lines 193-202) that
runs inside `z`'s right subtree when `z` has two children: recompute `max_`
bottom-up at every strict ancestor of the minimum, i.e. along the left spine,
leaving the minimum itself untouched (the loop starts at `successor->parent_`). -/
def refreshAbove : Tree → Tree
  | .node (.node ll liv lmx lc lr) iv _ c r =>
      let l2 := refreshAbove (.node ll liv lmx lc lr)
      .node l2 iv (maxHLR iv.high l2 r) c r
  | t => t

/-- The part of the max-recomputation loop of `remove` (lines 193-202) that
runs from a node's parent up to the root: rebuild every frame of the path with
`max_` recomputed from the frame's own high and its current children, the
first argument being the subtree currently hanging below the path. -/
def refreshPath : Tree → Path → Path
  | _, .root => .root
  | c, .inl iv _ red sib q =>
      let m2 := maxHLR iv.high c sib
      .inl iv m2 red sib (refreshPath (.node c iv m2 red sib) q)
  | c, .inr sib iv _ red q =>
      let m2 := maxHLR iv.high sib c
      .inr sib iv m2 red (refreshPath (.node sib iv m2 red c) q)

/-- `IntervalTree::remove` (lines 167-241) on the node sitting at the given
path.  A null argument returns at once (lines 168-170).  Otherwise:
* lines 172-181 pre-set `z->max_` from its children only (dropping `z`'s own
  high), so that the bottom-up refresh at the ancestors excludes it;
* lines 185-202 recompute `max_` bottom-up from `successor->parent_` (two
  children) or `z->parent_` (otherwise) to the root - with `z` still linked,
  so in the two-children case the walk passes through `z` itself and resets
  `z->max_` from `z`'s own high again (line 194), which is the value line 205
  then copies onto the successor;
* lines 208-234 splice: with at most one child, `x` is that child transplanted
  into `z`'s place; with two children the successor `y` (with its pre-splice
  color) replaces `z`, taking `z`'s color, `z`'s left child and the right
  subtree with `y` removed, and `x` is `y`'s old right child at `y`'s old
  position;
* lines 236-240: the delete fixup runs only when the spliced-out color was
  black. -/
def removeAt : Tree → Path → Tree
  | .nil, p => Tree.plug .nil p
  | .node .nil ziv _ zc .nil, p =>
      let rp := refreshPath (.node .nil ziv INTMIN zc .nil) p
      if zc then Tree.plug .nil rp else delFix .nil rp
  | .node .nil ziv _ zc (.node rl riv rmx rc rr), p =>
      let rp := refreshPath (.node .nil ziv rmx zc (.node rl riv rmx rc rr)) p
      if zc then Tree.plug (.node rl riv rmx rc rr) rp
      else delFix (.node rl riv rmx rc rr) rp
  | .node (.node ll liv lmx lc lr) ziv _ zc .nil, p =>
      let rp := refreshPath (.node (.node ll liv lmx lc lr) ziv lmx zc .nil) p
      if zc then Tree.plug (.node ll liv lmx lc lr) rp
      else delFix (.node ll liv lmx lc lr) rp
  | .node (.node ll liv lmx lc lr) ziv _ zc (.node rl riv rmx rc rr), p =>
      let L : Tree := .node ll liv lmx lc lr
      let R2 := refreshAbove (.node rl riv rmx rc rr)
      let zmx2 := maxHLR ziv.high L R2
      let rp := refreshPath (.node L ziv zmx2 zc R2) p
      let yred := minRed R2
      let xp := delMin R2 (.inr L (minIv R2) zmx2 zc rp)
      if yred then Tree.plug xp.1 xp.2 else delFix xp.1 xp.2

/-- Modelled from the spec: section 4.5 "Walk - all overlaps".  The class
declaration in src/include/algo/interval_tree.hpp (lines 38-71) has no
walk-all-overlaps member; the operation exists only in the spec, so it is
modelled from the spec's words: "Recurses into the left subtree only if it
exists and the query's low endpoint is less than the left child's max
(pruning subtrees that provably cannot contain an overlap); always tests the
current node for overlap; recurses into the right subtree under the symmetric
condition using the right child's max", with the visitor invoked once per
matching node in ascending key order (left subtree, node, right subtree).
`stepOK` is the guard: the child exists and the query's low endpoint is less
than the child's max. -/
def stepOK (q : Interval) : Tree → Bool
  | .nil => false
  | .node _ _ cm _ _ => decide (q.low < cm)

def walk : Tree → Interval → List Interval
  | .nil, _ => []
  | .node l iv _ _ r, q =>
      (if stepOK q l then walk l q else []) ++
      (if iv.overlap q then [iv] else []) ++
      (if stepOK q r then walk r q else [])

/-- The trees reachable from the empty tree by the public mutating operations:
`insert` with any interval, and `remove` on any node handle of the tree (a
handle is a position, i.e. the node's subtree together with its path; the null
handle is the `z = .nil` case). -/
inductive Reach : Tree → Prop
  | empty : Reach .nil
  | ins (t : Tree) (iv : Interval) : Reach t → Reach (insertT t iv)
  | rem (z : Tree) (p : Path) : Reach (Tree.plug z p) → Reach (removeAt z p)

/-- All interval high endpoints in the tree are at most `b`. -/
def hiLe : Tree → Int → Bool
  | .nil, _ => true
  | .node l iv _ _ r, b => decide (iv.high ≤ b) && hiLe l b && hiLe r b

/-- The upper-bound half of the augmentation invariant: every node's `max_`
field is at least the high endpoint of every interval in its subtree. -/
def maxUB : Tree → Bool
  | .nil => true
  | .node l iv mx _ r =>
      decide (iv.high ≤ mx) && hiLe l mx && hiLe r mx && maxUB l && maxUB r

/-- The exact augmentation invariant of the spec: every node's `max_` field
equals the maximum of its own high endpoint and its present children's `max_`
fields. -/
def maxExact : Tree → Bool
  | .nil => true
  | .node l iv mx _ r => decide (mx = maxHLR iv.high l r) && maxExact l && maxExact r

/-- Black height of a tree when every root-to-absent-leaf path passes the same
number of black nodes, `none` otherwise. -/
def bh : Tree → Option Nat
  | .nil => some 0
  | .node l _ _ red r =>
      match bh l, bh r with
      | some a, some b =>
          if a = b then some (a + (if red then 0 else 1)) else none
      | _, _ => none

/-- Black-height uniformity holds. -/
def bhOk (t : Tree) : Bool := (bh t).isSome

/-- The root is black (an empty tree counts as satisfying this). -/
def rootBlack : Tree → Bool
  | .nil => true
  | .node _ _ _ red _ => !red

/-- Whether the root node of a subtree is red (absent children are black). -/
def Tree.isRedRoot : Tree → Bool
  | .nil => false
  | .node _ _ _ red _ => red

/-- No red node has a red child. -/
def noRedRed : Tree → Bool
  | .nil => true
  | .node l _ _ red r =>
      (!(red && (l.isRedRoot || r.isRedRoot))) && noRedRed l && noRedRed r

/-- The tree with every `max_` field erased (set to 0): what remains is the
link structure, the intervals and the colors. -/
def eraseMax : Tree → Tree
  | .nil => .nil
  | .node l iv _ c r => .node (eraseMax l) iv 0 c (eraseMax r)

/-! ### Basic lemmas about inorder lists, plugging and rotations -/

/-- The intervals contributed by a path, split into the part left of the hole
and the part right of the hole. -/
def ilP : Path → List Interval × List Interval
  | .root => ([], [])
  | .inl iv _ _ sib q => ((ilP q).1, iv :: sib.inorderL ++ (ilP q).2)
  | .inr sib iv _ _ q => ((ilP q).1 ++ sib.inorderL ++ [iv], (ilP q).2)

/-! ### BST ordering -/

/-- Optional lower bound on a key. -/
def lbOk : Option Int → Int → Prop
  | none, _ => True
  | some a, k => a ≤ k

/-- Optional upper bound on a key. -/
def ubOk : Int → Option Int → Prop
  | _, none => True
  | k, some b => k ≤ b

/-- Weak BST bounds: every key lies between the bounds, left keys are at most
the node key, right keys at least the node key. -/
def Bnd : Tree → Option Int → Option Int → Prop
  | .nil, _, _ => True
  | .node l iv _ _ r, lo, hi =>
      lbOk lo iv.low ∧ ubOk iv.low hi ∧ Bnd l lo (some iv.low) ∧ Bnd r (some iv.low) hi

/-! ### The max upper-bound invariant -/

/-- The `max_` field of the root node, or a default for the absent tree. -/
def Tree.mxOr : Tree → Int → Int
  | .nil, d => d
  | .node _ _ mx _ _, _ => mx

/-- What a path requires of the subtree plugged into it so that the whole
tree satisfies `maxUB`: every frame bounds its own high, its sibling and the
hole, the sibling itself satisfies `maxUB`, recursively up the path. -/
def fitsUB : Path → Tree → Prop
  | .root, _ => True
  | .inl iv mx red sib q, n =>
      iv.high ≤ mx ∧ hiLe sib mx = true ∧ hiLe n mx = true ∧ maxUB sib = true ∧
        fitsUB q (.node n iv mx red sib)
  | .inr sib iv mx red q, n =>
      iv.high ≤ mx ∧ hiLe sib mx = true ∧ hiLe n mx = true ∧ maxUB sib = true ∧
        fitsUB q (.node sib iv mx red n)

/-! ### The insert descent contract -/

/-- Every frame of the path has a `max_` at least `h` (the new interval's high,
per the `std::max` updates at line 92). -/
def pathHiGe : Path → Int → Bool
  | .root, _ => true
  | .inl _ mx _ _ q, h => decide (h ≤ mx) && pathHiGe q h
  | .inr _ _ mx _ q, h => decide (h ≤ mx) && pathHiGe q h

/-- The descent comparisons of lines 93-97: each left step was taken because
the new key is strictly below the parent key, each right step because it is
not (ties go right). -/
def descOk : Interval → Path → Bool
  | _, .root => true
  | iv, .inl piv _ _ _ q => decide (iv.low < piv.low) && descOk iv q
  | iv, .inr _ piv _ _ q => !(decide (iv.low < piv.low)) && descOk iv q

/-! ### Fueled transcriptions of the three loops (termination) -/

/-- The height of a tree; each iteration of the `search` loop moves to a
child, so the height bounds the iteration count. -/
def heightT : Tree → Nat
  | .nil => 0
  | .node l _ _ _ r => max (heightT l) (heightT r) + 1

/-- The `while` loop of `IntervalTree::search` (lines 156-164) transcribed
with explicit fuel, one unit per iteration; `none` means the fuel ran out
before the loop finished. -/
def searchF : Nat → Tree → Interval → Option (Option Interval)
  | 0, _, _ => none
  | fuel+1, t, q =>
    match t with
    | .nil => some none
    | .node l iv _ _ r =>
      if iv.overlap q then some (some iv)
      else match l with
        | .node ll liv lmx lc lr =>
            if q.low ≤ lmx then searchF fuel (.node ll liv lmx lc lr) q
            else searchF fuel r q
        | .nil => searchF fuel r q

/-- The `while` loop of `IntervalTree::rb_insert_fixup` (lines 113-151)
transcribed with explicit fuel, one unit per iteration: only the uncle-red
branches re-enter the loop (two frames up); every other branch leaves it.
`none` means the fuel ran out before the loop finished. -/
def insFixF : Nat → Tree → Path → Option Tree
  | 0, _, _ => none
  | fuel+1, n, p =>
    match p with
    | .root => some n.setBlack
    | .inl pIv pMx pRed sib q =>
      if pRed then
        match q with
        | .root => some ((Tree.plug n (.inl pIv pMx pRed sib .root)).setBlack)
        | .inl gIv gMx _ gU gq =>
          match gU with
          | .node ul uiv umx true ur =>
              insFixF fuel (.node (.node n pIv pMx false sib) gIv gMx true
                (.node ul uiv umx false ur)) gq
          | _ =>
              some ((Tree.plug (rotR (.node (.node n pIv pMx false sib) gIv gMx
                true gU)) gq).setBlack)
        | .inr gL gIv gMx _ gq =>
          match gL with
          | .node ul uiv umx true ur =>
              insFixF fuel (.node (.node ul uiv umx false ur) gIv gMx true
                (.node n pIv pMx false sib)) gq
          | _ =>
              some ((Tree.plug (rotL (.node gL gIv gMx true
                ((rotR (.node n pIv pMx true sib)).setBlack))) gq).setBlack)
      else some ((Tree.plug n (.inl pIv pMx pRed sib q)).setBlack)
    | .inr sib pIv pMx pRed q =>
      if pRed then
        match q with
        | .root => some ((Tree.plug n (.inr sib pIv pMx pRed .root)).setBlack)
        | .inl gIv gMx _ gU gq =>
          match gU with
          | .node ul uiv umx true ur =>
              insFixF fuel (.node (.node sib pIv pMx false n) gIv gMx true
                (.node ul uiv umx false ur)) gq
          | _ =>
              some ((Tree.plug (rotR (.node ((rotL (.node sib pIv pMx true
                n)).setBlack) gIv gMx true gU)) gq).setBlack)
        | .inr gL gIv gMx _ gq =>
          match gL with
          | .node ul uiv umx true ur =>
              insFixF fuel (.node (.node ul uiv umx false ur) gIv gMx true
                (.node sib pIv pMx false n)) gq
          | _ =>
              some ((Tree.plug (rotL (.node gL gIv gMx true
                (.node sib pIv pMx false n))) gq).setBlack)
      else some ((Tree.plug n (.inr sib pIv pMx pRed q)).setBlack)

/-- `!c || !c->is_red_`: the child is absent or black (lines 257, 263, 287,
293). -/
def notRed : Tree → Bool
  | .nil => true
  | .node _ _ _ red _ => !red

/-- The `while` loop of `IntervalTree::rb_delete_fixup` (lines 244-306)
transcribed with explicit fuel, one unit per iteration; `none` means the fuel
ran out.  Unlike `delFix`, nothing is composed across iterations here: after
the case-1 rotation the same iteration re-dispatches on the new sibling
exactly as the straight-line body does (lines 251-273), and a case-2 step
hands the red parent to the next iteration, whose loop check fails.  The
dispatch uses the boolean nephew tests of lines 257 / 263 (and their mirrors)
verbatim; the `.nil => none` arms sit under conditions that force the nephew
to be a red node, so they are unreachable. -/
def delFixF : Nat → Tree → Path → Option Tree
  | 0, _, _ => none
  | fuel+1, x, p =>
    match x, p with
    | x, .root => some x.setBlack
    | .nil, p => some (Tree.plug .nil p)
    | .node xl xiv xmx true xr, p =>
        some (Tree.plug (.node xl xiv xmx false xr) p)
    | .node xl xiv xmx false xr, .inl pIv pMx pRed w q =>
      let x : Tree := .node xl xiv xmx false xr
      match w with
      | .nil => delFixF fuel (.node x pIv pMx pRed .nil) q
      | .node wl wiv wmx wred wr =>
        if wred then
          -- case 1 (lines 251-256): recolor, left-rotate at the parent; the
          -- iteration continues on the new sibling wl under the red parent
          let pMx2 := recompMax pIv.high x wl
          let p1 : Path := .inl wiv pMx false wr q
          match wl with
          | .nil => delFixF fuel (.node x pIv pMx2 true .nil) p1
          | .node al aiv amx ac ar =>
            if notRed al && notRed ar then
              -- case 2 (lines 257-261): redden the sibling, move up
              delFixF fuel (.node x pIv pMx2 true (.node al aiv amx true ar)) p1
            else if notRed ar then
              -- case 3 (lines 263-268) then case 4: the near nephew is red
              match al with
              | .node cl civ cmx _ cr =>
                  some ((Tree.plug (rotL (.node x pIv pMx2 false
                    (.node cl civ amx true
                      (.node cr aiv (recompMax aiv.high cr ar) false ar))))
                    p1).setBlack)
              | .nil => none
            else
              -- case 4 (lines 269-273): exit with the root blackened
              match ar with
              | .node dl div dmx _ dr =>
                  some ((Tree.plug (rotL (.node x pIv pMx2 false
                    (.node al aiv amx true (.node dl div dmx false dr))))
                    p1).setBlack)
              | .nil => none
        else
          if notRed wl && notRed wr then
            delFixF fuel (.node x pIv pMx pRed (.node wl wiv wmx true wr)) q
          else if notRed wr then
            match wl with
            | .node cl civ cmx _ cr =>
                some ((Tree.plug (rotL (.node x pIv pMx false
                  (.node cl civ wmx pRed
                    (.node cr wiv (recompMax wiv.high cr wr) false wr))))
                  q).setBlack)
            | .nil => none
          else
            match wr with
            | .node dl div dmx _ dr =>
                some ((Tree.plug (rotL (.node x pIv pMx false
                  (.node wl wiv wmx pRed (.node dl div dmx false dr))))
                  q).setBlack)
            | .nil => none
    | .node xl xiv xmx false xr, .inr w pIv pMx pRed q =>
      let x : Tree := .node xl xiv xmx false xr
      match w with
      | .nil => delFixF fuel (.node .nil pIv pMx pRed x) q
      | .node wl wiv wmx wred wr =>
        if wred then
          -- mirror case 1 (lines 281-286): right-rotate at the parent; the
          -- iteration continues on the new sibling wr under the red parent
          let pMx2 := recompMax pIv.high wr x
          let p1 : Path := .inr wl wiv pMx false q
          match wr with
          | .nil => delFixF fuel (.node .nil pIv pMx2 true x) p1
          | .node al aiv amx ac ar =>
            if notRed ar && notRed al then
              delFixF fuel (.node (.node al aiv amx true ar) pIv pMx2 true x) p1
            else if notRed al then
              -- mirror case 3 (lines 293-298) then case 4
              match ar with
              | .node cl civ cmx _ cr =>
                  some ((Tree.plug (rotR (.node
                    (.node (.node al aiv (recompMax aiv.high al cl) false cl)
                      civ amx true cr)
                    pIv pMx2 false x)) p1).setBlack)
              | .nil => none
            else
              -- mirror case 4 (lines 299-303)
              match al with
              | .node dl div dmx _ dr =>
                  some ((Tree.plug (rotR (.node
                    (.node (.node dl div dmx false dr) aiv amx true ar)
                    pIv pMx2 false x)) p1).setBlack)
              | .nil => none
        else
          if notRed wr && notRed wl then
            delFixF fuel (.node (.node wl wiv wmx true wr) pIv pMx pRed x) q
          else if notRed wl then
            match wr with
            | .node cl civ cmx _ cr =>
                some ((Tree.plug (rotR (.node
                  (.node (.node wl wiv (recompMax wiv.high wl cl) false cl)
                    civ wmx pRed cr)
                  pIv pMx false x)) q).setBlack)
            | .nil => none
          else
            match wl with
            | .node dl div dmx _ dr =>
                some ((Tree.plug (rotR (.node
                  (.node (.node dl div dmx false dr) wiv wmx pRed wr)
                  pIv pMx false x)) q).setBlack)
            | .nil => none

/-! ### Concrete traces -/

/-- Inserting (10,10), (5,5), (15,15), (2,2): the fourth insert recolors via
the red uncle, giving a tree whose leaves (5,5)-side and (15,15) are black. -/
def T1pre : Tree :=
  insertT (insertT (insertT (insertT .nil ⟨10, 10⟩) ⟨5, 5⟩) ⟨15, 15⟩) ⟨2, 2⟩

/-- The childless black node (15,15) of `T1pre`. -/
def zRem1 : Tree := .node .nil ⟨15, 15⟩ 15 false .nil

/-- The position of (15,15) in `T1pre`: right child of the root. -/
def pRem1 : Path :=
  .inr (.node (.node .nil ⟨2, 2⟩ 2 true .nil) ⟨5, 5⟩ 5 false .nil) ⟨10, 10⟩ 15
    false .root

/-- `T1pre` after removing (15,15): the replacement position is the absent
leaf, so the delete fixup is skipped entirely. -/
def T1post : Tree := removeAt zRem1 pRem1

/-- Inserting (5,100), (1,1), (7,7): a black root with two red leaves. -/
def T2pre : Tree := insertT (insertT (insertT .nil ⟨5, 100⟩) ⟨1, 1⟩) ⟨7, 7⟩

/-- `T2pre` after removing its two-child root (5,100): the successor (7,7)
inherits `max_ = 100`, which no interval in its subtree attains. -/
def T2post : Tree := removeAt T2pre .root

/-- Inserting (10,10), (5,100), (15,40), (1,1), (7,7). -/
def T3pre : Tree :=
  insertT (insertT (insertT (insertT (insertT .nil ⟨10, 10⟩) ⟨5, 100⟩)
    ⟨15, 40⟩) ⟨1, 1⟩) ⟨7, 7⟩

/-- The two-child node (5,100) of `T3pre`. -/
def zRem3 : Tree :=
  .node (.node .nil ⟨1, 1⟩ 1 true .nil) ⟨5, 100⟩ 100 false
    (.node .nil ⟨7, 7⟩ 7 true .nil)

/-- The position of (5,100) in `T3pre`: left child of the root. -/
def pRem3 : Path :=
  .inl ⟨10, 10⟩ 100 false (.node .nil ⟨15, 40⟩ 40 false .nil) .root

/-- `T3pre` after removing (5,100): the successor (7,7) keeps the stale
`max_ = 100`, which later lures `search` into the left subtree. -/
def T3post : Tree := removeAt zRem3 pRem3

/-- A query overlapping only (15,40) of `T3post`. -/
def q3 : Interval := ⟨12, 30⟩

/-- Inserting (5,6) then (0,5). -/
def T4 : Tree := insertT (insertT .nil ⟨5, 6⟩) ⟨0, 5⟩

/-- A query touching (0,5) exactly at its high endpoint. -/
def q4 : Interval := ⟨5, 9⟩

/-! ### Theorems -/

theorem plug_inorderL (p : Path) (n : Tree) :
    (Tree.plug n p).inorderL = (ilP p).1 ++ n.inorderL ++ (ilP p).2 := by
  induction p generalizing n with
  | root => simp [Tree.plug, ilP]
  | inl iv mx red sib q ih =>
      simp [Tree.plug, ilP, ih, Tree.inorderL]
  | inr sib iv mx red q ih =>
      simp [Tree.plug, ilP, ih, Tree.inorderL]

theorem rotL_inorderL (t : Tree) : (rotL t).inorderL = t.inorderL := by
  cases t with
  | nil => rfl
  | node a xi xm xc y =>
      cases y with
      | nil => rfl
      | node b yi ym yc c => simp [rotL, Tree.inorderL]

theorem rotR_inorderL (t : Tree) : (rotR t).inorderL = t.inorderL := by
  cases t with
  | nil => rfl
  | node y xi xm xc c =>
      cases y with
      | nil => rfl
      | node a yi ym yc b => simp [rotR, Tree.inorderL]

theorem setBlack_inorderL (t : Tree) : t.setBlack.inorderL = t.inorderL := by
  cases t <;> rfl

theorem refreshAbove_inorderL (t : Tree) : (refreshAbove t).inorderL = t.inorderL := by
  induction t with
  | nil => rfl
  | node l iv mx c r ihl ihr =>
      cases l with
      | nil => rfl
      | node ll liv lmx lc lr => simp [refreshAbove, Tree.inorderL, ihl]

theorem ilP_refreshPath (p : Path) (c : Tree) : ilP (refreshPath c p) = ilP p := by
  induction p generalizing c with
  | root => rfl
  | inl iv mx red sib q ih => simp [refreshPath, ilP, ih]
  | inr sib iv mx red q ih => simp [refreshPath, ilP, ih]

theorem hiLe_iff_mem (t : Tree) (b : Int) :
    hiLe t b = true ↔ ∀ jv ∈ t.inorderL, jv.high ≤ b := by
  induction t with
  | nil => simp [hiLe, Tree.inorderL]
  | node l iv mx red r ihl ihr =>
      simp only [hiLe, Tree.inorderL, Bool.and_eq_true, decide_eq_true_eq,
        List.mem_append, List.mem_cons]
      constructor
      · rintro ⟨⟨h1, h2⟩, h3⟩ jv hjv
        rcases hjv with h | h | h
        · exact ihl.mp h2 jv h
        · exact h ▸ h1
        · exact ihr.mp h3 jv h
      · intro h
        exact ⟨⟨h iv (Or.inr (Or.inl rfl)), ihl.mpr fun jv hj => h jv (Or.inl hj)⟩,
          ihr.mpr fun jv hj => h jv (Or.inr (Or.inr hj))⟩

theorem hiLe_mono {t : Tree} {a b : Int} (hab : a ≤ b) (h : hiLe t a = true) :
    hiLe t b = true := by
  rw [hiLe_iff_mem] at h ⊢
  exact fun jv hj => le_trans (h jv hj) hab

theorem hiLe_of_inorder_eq {t u : Tree} (h : t.inorderL = u.inorderL) (b : Int) :
    hiLe t b = hiLe u b := by
  rw [Bool.eq_iff_iff, hiLe_iff_mem, hiLe_iff_mem, h]

theorem rotL_nil_iff (t : Tree) : rotL t = Tree.nil ↔ t = Tree.nil := by
  cases t with
  | nil => simp [rotL]
  | node a xi xm xc y => cases y <;> simp [rotL]

theorem rotR_nil_iff (t : Tree) : rotR t = Tree.nil ↔ t = Tree.nil := by
  cases t with
  | nil => simp [rotR]
  | node y xi xm xc c => cases y <;> simp [rotR]

theorem insFix_inorderL (n : Tree) (p : Path) :
    (insFix n p).inorderL = (Tree.plug n p).inorderL := by
  induction n, p using insFix.induct <;>
    first
      | (simp_all [insFix, plug_inorderL, rotL_inorderL, rotR_inorderL,
          rotL_nil_iff, rotR_nil_iff, setBlack_inorderL, ilP, Tree.inorderL]
         done)
      | (simp only [insFix]
         repeat' split
         all_goals
           simp_all [plug_inorderL, rotL_inorderL, rotR_inorderL,
             rotL_nil_iff, rotR_nil_iff, setBlack_inorderL, ilP, Tree.inorderL]
         done)
      | (rw [insFix.eq_def]
         repeat' split
         all_goals
           simp_all [plug_inorderL, rotL_inorderL, rotR_inorderL,
             rotL_nil_iff, rotR_nil_iff, setBlack_inorderL, ilP, Tree.inorderL])

theorem delFix_inorderL (x : Tree) (p : Path) :
    (delFix x p).inorderL = (Tree.plug x p).inorderL := by
  induction x, p using delFix.induct <;>
    first
      | (simp_all [delFix, plug_inorderL, rotL_inorderL, rotR_inorderL,
          rotL_nil_iff, rotR_nil_iff, setBlack_inorderL, ilP, Tree.inorderL]
         done)
      | (simp only [delFix]
         repeat' split
         all_goals
           simp_all [plug_inorderL, rotL_inorderL, rotR_inorderL,
             rotL_nil_iff, rotR_nil_iff, setBlack_inorderL, ilP, Tree.inorderL])

theorem insLoc_plug (t : Tree) (iv : Interval) (p : Path) :
    Tree.plug (insLocAux t iv p).1 (insLocAux t iv p).2 =
      Tree.plug (insNaive t iv) p := by
  induction t generalizing p with
  | nil => rfl
  | node l niv nmx nc r ihl ihr =>
      simp only [insLocAux, insNaive]
      by_cases h : iv.low < niv.low
      · simp [h, ihl, Tree.plug]
      · simp [h, ihr, Tree.plug]

theorem insNaive_perm (t : Tree) (iv : Interval) :
    (insNaive t iv).inorderL.Perm (iv :: t.inorderL) := by
  induction t with
  | nil => simp [insNaive, Tree.inorderL]
  | node l niv nmx nc r ihl ihr =>
      by_cases h : iv.low < niv.low
      · simp only [insNaive, h, if_pos, Tree.inorderL]
        exact ihl.append_right _
      · simp only [insNaive, h, if_neg, ite_false, Tree.inorderL]
        refine List.Perm.trans (List.Perm.append_left _ (List.Perm.cons _ ihr)) ?_
        have h1 : l.inorderL ++ niv :: iv :: r.inorderL =
            (l.inorderL ++ [niv]) ++ iv :: r.inorderL := by simp
        have h2 : (l.inorderL ++ [niv]) ++ r.inorderL =
            l.inorderL ++ niv :: r.inorderL := by simp
        rw [h1, ← h2]
        exact List.perm_middle

theorem insertT_inorder_perm (t : Tree) (iv : Interval) :
    (insertT t iv).inorderL.Perm (iv :: t.inorderL) := by
  have h1 : (insertT t iv).inorderL = (insNaive t iv).inorderL := by
    show (insFix (insLocAux t iv .root).1 (insLocAux t iv .root).2).inorderL = _
    rw [insFix_inorderL, insLoc_plug]
    rfl
  rw [h1]
  exact insNaive_perm t iv

theorem Bnd_sorted {t : Tree} {lo hi : Option Int} (h : Bnd t lo hi) :
    (keysL t).Sorted (· ≤ ·) ∧ ∀ k ∈ keysL t, lbOk lo k ∧ ubOk k hi := by
  induction t generalizing lo hi with
  | nil => simp [keysL, Tree.inorderL]
  | node l iv mx c r ihl ihr =>
      obtain ⟨h1, h2, hl, hr⟩ := h
      obtain ⟨sl, bl⟩ := ihl hl
      obtain ⟨sr, br⟩ := ihr hr
      simp only [keysL, Tree.inorderL, List.map_append, List.map_cons] at *
      constructor
      · rw [List.Sorted, List.pairwise_append]
        refine ⟨sl, ?_, ?_⟩
        · rw [List.pairwise_cons]
          exact ⟨fun k hk => (br k hk).1, sr⟩
        · intro a ha b hb
          have hau : a ≤ iv.low := (bl a ha).2
          rcases List.mem_cons.mp hb with rfl | hb'
          · exact hau
          · exact le_trans hau (br b hb').1
      · intro k hk
        rcases List.mem_append.mp hk with hk | hk
        · exact ⟨(bl k hk).1, by
            rcases hi with _ | b
            · trivial
            · exact le_trans (bl k hk).2 h2⟩
        · rcases List.mem_cons.mp hk with rfl | hk'
          · exact ⟨h1, h2⟩
          · exact ⟨by
              rcases lo with _ | a
              · trivial
              · exact le_trans h1 (br k hk').1, (br k hk').2⟩

theorem sorted_Bnd {t : Tree} {lo hi : Option Int}
    (hs : (keysL t).Sorted (· ≤ ·))
    (hlo : ∀ k ∈ keysL t, lbOk lo k) (hhi : ∀ k ∈ keysL t, ubOk k hi) :
    Bnd t lo hi := by
  induction t generalizing lo hi with
  | nil => trivial
  | node l iv mx c r ihl ihr =>
      simp only [keysL, Tree.inorderL, List.map_append, List.map_cons] at hs hlo hhi
      rw [List.Sorted, List.pairwise_append, List.pairwise_cons] at hs
      obtain ⟨sl, ⟨hrge, sr⟩, hcross⟩ := hs
      have hivmem : iv.low ∈ l.inorderL.map Interval.low ++
          iv.low :: r.inorderL.map Interval.low := by simp
      refine ⟨hlo _ hivmem, hhi _ hivmem, ?_, ?_⟩
      · refine ihl sl (fun k hk => ?_) (fun k hk => ?_)
        · simp only [keysL] at hk
          exact hlo k (List.mem_append.mpr (Or.inl hk))
        · simp only [keysL] at hk
          exact hcross k hk iv.low (List.mem_cons_self _ _)
      · refine ihr sr (fun k hk => ?_) (fun k hk => ?_)
        · simp only [keysL] at hk
          exact hrge k hk
        · simp only [keysL] at hk
          exact hhi k (List.mem_append.mpr (Or.inr (List.mem_cons_of_mem _ hk)))

theorem Bnd_insNaive {t : Tree} {lo hi : Option Int} {iv : Interval}
    (h : Bnd t lo hi) (h1 : lbOk lo iv.low) (h2 : ubOk iv.low hi) :
    Bnd (insNaive t iv) lo hi := by
  induction t generalizing lo hi with
  | nil => exact ⟨h1, h2, trivial, trivial⟩
  | node l niv nmx nc r ihl ihr =>
      obtain ⟨b1, b2, bl, br⟩ := h
      by_cases hc : iv.low < niv.low
      · simp only [insNaive, hc, if_pos]
        exact ⟨b1, b2, ihl bl h1 (le_of_lt hc), br⟩
      · simp only [insNaive, hc, if_neg, ite_false]
        exact ⟨b1, b2, bl, ihr br (not_lt.mp hc) h2⟩

theorem keysL_insertT (t : Tree) (iv : Interval) :
    keysL (insertT t iv) = keysL (insNaive t iv) := by
  unfold keysL
  have h1 : (insertT t iv).inorderL = (insNaive t iv).inorderL := by
    show (insFix (insLocAux t iv .root).1 (insLocAux t iv .root).2).inorderL = _
    rw [insFix_inorderL, insLoc_plug]
    rfl
  rw [h1]

theorem sorted_insertT {t : Tree} (hs : (keysL t).Sorted (· ≤ ·)) (iv : Interval) :
    (keysL (insertT t iv)).Sorted (· ≤ ·) := by
  rw [keysL_insertT]
  have hb : Bnd t none none := sorted_Bnd hs (by intro k _; trivial) (by intro k _; trivial)
  exact (Bnd_sorted (Bnd_insNaive hb trivial trivial)).1

theorem inorder_ne_nil {t : Tree} (h : t ≠ .nil) : t.inorderL ≠ [] := by
  cases t with
  | nil => exact absurd rfl h
  | node l iv mx c r => simp [Tree.inorderL]

theorem minIv_cons {t : Tree} (h : t ≠ .nil) :
    t.inorderL = minIv t :: t.inorderL.tail := by
  induction t with
  | nil => exact absurd rfl h
  | node l iv mx c r ihl ihr =>
      cases l with
      | nil => simp [Tree.inorderL, minIv]
      | node ll liv lmx lc lr =>
          have hne : (Tree.node ll liv lmx lc lr) ≠ .nil := by simp
          have h2 := ihl hne
          have e1 : (Tree.node (Tree.node ll liv lmx lc lr) iv mx c r).inorderL
              = (Tree.node ll liv lmx lc lr).inorderL ++ iv :: r.inorderL := rfl
          have e2 : minIv (Tree.node (Tree.node ll liv lmx lc lr) iv mx c r)
              = minIv (Tree.node ll liv lmx lc lr) := rfl
          rw [e1, e2, h2]
          simp

theorem delMin_plug_inorderL {t : Tree} (p : Path) (h : t ≠ .nil) :
    (Tree.plug (delMin t p).1 (delMin t p).2).inorderL =
      (ilP p).1 ++ t.inorderL.tail ++ (ilP p).2 := by
  induction t generalizing p with
  | nil => exact absurd rfl h
  | node l iv mx c r ihl ihr =>
      cases l with
      | nil => simp [delMin, plug_inorderL, Tree.inorderL]
      | node ll liv lmx lc lr =>
          have hne : (Tree.node ll liv lmx lc lr) ≠ .nil := by simp
          simp only [delMin]
          rw [ihl _ hne]
          simp only [ilP]
          have e1 : (Tree.node (Tree.node ll liv lmx lc lr) iv mx c r).inorderL
              = (Tree.node ll liv lmx lc lr).inorderL ++ iv :: r.inorderL := rfl
          rw [e1, minIv_cons hne]
          simp

theorem refreshAbove_ne_nil (rl : Tree) (riv : Interval) (rmx : Int) (rc : Bool)
    (rr : Tree) : refreshAbove (.node rl riv rmx rc rr) ≠ .nil := by
  cases rl <;> simp [refreshAbove]

theorem ite_fix_inorderL (b : Bool) (x : Tree) (q : Path) :
    (if b then Tree.plug x q else delFix x q).inorderL = (Tree.plug x q).inorderL := by
  split
  · rfl
  · exact delFix_inorderL _ _

theorem removeAt_inorderL_sublist (z : Tree) (p : Path) :
    (removeAt z p).inorderL.Sublist (Tree.plug z p).inorderL := by
  cases z with
  | nil => simp [removeAt]
  | node L ziv zmx zc R =>
    cases L with
    | nil =>
      cases R with
      | nil =>
          simp only [removeAt, ite_fix_inorderL, plug_inorderL, ilP_refreshPath,
            Tree.inorderL]
          simp only [List.append_nil, List.nil_append, List.append_assoc,
            List.cons_append]
          exact List.Sublist.append_left ((List.Sublist.refl _).cons _) _
      | node rl riv rmx rc rr =>
          simp only [removeAt, ite_fix_inorderL, plug_inorderL, ilP_refreshPath,
            Tree.inorderL]
          simp only [List.nil_append, List.append_assoc, List.cons_append]
          exact List.Sublist.append_left ((List.Sublist.refl _).cons _) _
    | node ll liv lmx lc lr =>
      cases R with
      | nil =>
          simp only [removeAt, ite_fix_inorderL, plug_inorderL, ilP_refreshPath,
            Tree.inorderL]
          simp only [List.append_assoc, List.append_nil, List.cons_append]
          refine List.Sublist.append_left (List.Sublist.append_left ?_ _) _
          refine List.Sublist.cons₂ _ (List.Sublist.append_left ?_ _)
          exact (List.Sublist.refl _).cons _
      | node rl riv rmx rc rr =>
          simp only [removeAt, ite_fix_inorderL]
          rw [delMin_plug_inorderL _ (refreshAbove_ne_nil rl riv rmx rc rr)]
          simp only [ilP, ilP_refreshPath, plug_inorderL]
          rw [refreshAbove_inorderL]
          have hmin : (Tree.node rl riv rmx rc rr).inorderL =
              minIv (refreshAbove (.node rl riv rmx rc rr)) ::
                (Tree.node rl riv rmx rc rr).inorderL.tail := by
            rw [← refreshAbove_inorderL (.node rl riv rmx rc rr)]
            exact minIv_cons (refreshAbove_ne_nil rl riv rmx rc rr)
          have e1 : (Tree.node (Tree.node ll liv lmx lc lr) ziv zmx zc
              (Tree.node rl riv rmx rc rr)).inorderL
              = (Tree.node ll liv lmx lc lr).inorderL ++
                ziv :: (Tree.node rl riv rmx rc rr).inorderL := rfl
          rw [e1, hmin]
          simp only [List.append_assoc, List.cons_append, List.tail_cons]
          refine List.Sublist.append_left ?_ _
          refine List.Sublist.append_left ?_ _
          exact (List.Sublist.refl _).cons _

theorem sorted_removeAt {z : Tree} {p : Path}
    (hs : (keysL (Tree.plug z p)).Sorted (· ≤ ·)) :
    (keysL (removeAt z p)).Sorted (· ≤ ·) :=
  List.Pairwise.sublist ((removeAt_inorderL_sublist z p).map _) hs

theorem reach_sorted {t : Tree} (h : Reach t) : (keysL t).Sorted (· ≤ ·) := by
  induction h with
  | empty => simp [keysL, Tree.inorderL]
  | ins t iv _ ih => exact sorted_insertT ih iv
  | rem z p _ ih => exact sorted_removeAt ih

theorem childMaxGt_eq_childMaxStd (m : Int) (t : Tree) :
    childMaxGt m t = childMaxStd m t := by
  cases t with
  | nil => rfl
  | node l iv mx c r =>
      simp only [childMaxGt, childMaxStd, max_def]
      omega

theorem recompMax_eq_maxHLR (h : Int) (l r : Tree) :
    recompMax h l r = maxHLR h l r := by
  simp [recompMax, maxHLR, childMaxGt_eq_childMaxStd]

theorem le_childMaxStd (m : Int) (t : Tree) : m ≤ childMaxStd m t := by
  cases t with
  | nil => exact le_refl m
  | node l iv mx c r => exact le_max_left _ _

theorem le_maxHLR (h : Int) (l r : Tree) : h ≤ maxHLR h l r :=
  le_trans (le_childMaxStd h l) (le_childMaxStd _ r)

theorem hiLe_node_iff (l : Tree) (iv : Interval) (mx : Int) (c : Bool) (r : Tree)
    (b : Int) : hiLe (.node l iv mx c r) b = true ↔
      iv.high ≤ b ∧ hiLe l b = true ∧ hiLe r b = true := by
  simp [hiLe, and_assoc]

theorem maxUB_node_iff (l : Tree) (iv : Interval) (mx : Int) (c : Bool) (r : Tree) :
    maxUB (.node l iv mx c r) = true ↔
      iv.high ≤ mx ∧ hiLe l mx = true ∧ hiLe r mx = true ∧
        maxUB l = true ∧ maxUB r = true := by
  simp [maxUB, and_assoc]

theorem hiLe_self_childMaxStd {t : Tree} (h : maxUB t = true) (m : Int) :
    hiLe t (childMaxStd m t) = true := by
  cases t with
  | nil => rfl
  | node l iv mx c r =>
      rw [maxUB_node_iff] at h
      obtain ⟨h1, h2, h3, _, _⟩ := h
      rw [hiLe_node_iff]
      exact ⟨le_trans h1 (le_max_right _ _),
        hiLe_mono (le_max_right _ _) h2, hiLe_mono (le_max_right _ _) h3⟩

theorem hiLe_l_maxHLR {l : Tree} (hl : maxUB l = true) (h : Int) (r : Tree) :
    hiLe l (maxHLR h l r) = true :=
  hiLe_mono (le_childMaxStd _ r) (hiLe_self_childMaxStd hl h)

theorem hiLe_r_maxHLR {r : Tree} (hr : maxUB r = true) (h : Int) (l : Tree) :
    hiLe r (maxHLR h l r) = true :=
  hiLe_self_childMaxStd hr _

theorem hiLe_setBlack (t : Tree) (b : Int) : hiLe t.setBlack b = hiLe t b :=
  hiLe_of_inorder_eq (setBlack_inorderL t) b

theorem maxUB_setBlack (t : Tree) : maxUB t.setBlack = maxUB t := by
  cases t <;> rfl

theorem rotL_maxUB {t : Tree} (h : maxUB t = true) : maxUB (rotL t) = true := by
  cases t with
  | nil => exact h
  | node a xi xm xc y =>
      cases y with
      | nil => exact h
      | node b yi ym yc c =>
          rw [maxUB_node_iff] at h
          obtain ⟨h1, h2, h3, h4, h5⟩ := h
          rw [hiLe_node_iff] at h3
          obtain ⟨h6, h7, h8⟩ := h3
          rw [maxUB_node_iff] at h5
          obtain ⟨h9, h10, h11, h12, h13⟩ := h5
          simp only [rotL]
          rw [maxUB_node_iff]
          refine ⟨h6, ?_, h8, ?_, h13⟩
          · rw [hiLe_node_iff]
            exact ⟨h1, h2, h7⟩
          · rw [maxUB_node_iff, recompMax_eq_maxHLR]
            exact ⟨le_maxHLR _ _ _, hiLe_l_maxHLR h4 _ _, hiLe_r_maxHLR h12 _ _,
              h4, h12⟩

theorem rotR_maxUB {t : Tree} (h : maxUB t = true) : maxUB (rotR t) = true := by
  cases t with
  | nil => exact h
  | node y xi xm xc c =>
      cases y with
      | nil => exact h
      | node a yi ym yc b =>
          rw [maxUB_node_iff] at h
          obtain ⟨h1, h2, h3, h4, h5⟩ := h
          rw [hiLe_node_iff] at h2
          obtain ⟨h6, h7, h8⟩ := h2
          rw [maxUB_node_iff] at h4
          obtain ⟨h9, h10, h11, h12, h13⟩ := h4
          simp only [rotR]
          rw [maxUB_node_iff]
          refine ⟨h6, h7, ?_, h12, ?_⟩
          · rw [hiLe_node_iff]
            exact ⟨h1, h8, h3⟩
          · rw [maxUB_node_iff, recompMax_eq_maxHLR]
            exact ⟨le_maxHLR _ _ _, hiLe_l_maxHLR h13 _ _, hiLe_r_maxHLR h5 _ _,
              h13, h5⟩

theorem plug_maxUB_iff (p : Path) (n : Tree) :
    maxUB (Tree.plug n p) = true ↔ maxUB n = true ∧ fitsUB p n := by
  induction p generalizing n with
  | root => simp [Tree.plug, fitsUB]
  | inl iv mx red sib q ih =>
      simp only [Tree.plug, fitsUB]
      rw [ih, maxUB_node_iff]
      tauto
  | inr sib iv mx red q ih =>
      simp only [Tree.plug, fitsUB]
      rw [ih, maxUB_node_iff]
      tauto

theorem fitsUB_mono (p : Path) {n n' : Tree} (h : fitsUB p n)
    (himp : ∀ b : Int, hiLe n b = true → hiLe n' b = true) : fitsUB p n' := by
  induction p generalizing n n' with
  | root => trivial
  | inl iv mx red sib q ih =>
      obtain ⟨h1, h2, h3, h4, h5⟩ := h
      refine ⟨h1, h2, himp _ h3, h4, ih h5 ?_⟩
      intro b hb
      rw [hiLe_node_iff] at hb ⊢
      exact ⟨hb.1, himp _ hb.2.1, hb.2.2⟩
  | inr sib iv mx red q ih =>
      obtain ⟨h1, h2, h3, h4, h5⟩ := h
      refine ⟨h1, h2, himp _ h3, h4, ih h5 ?_⟩
      intro b hb
      rw [hiLe_node_iff] at hb ⊢
      exact ⟨hb.1, hb.2.1, himp _ hb.2.2⟩

theorem fitsUB_of_inorder_eq (p : Path) {n n' : Tree}
    (h : fitsUB p n) (he : n.inorderL = n'.inorderL) : fitsUB p n' :=
  fitsUB_mono p h (fun b hb => by rw [← hiLe_of_inorder_eq he]; exact hb)

theorem insFix_maxUB : ∀ (n : Tree) (p : Path),
    maxUB n = true → fitsUB p n → maxUB (insFix n p) = true := by
  intro n p
  induction n, p using insFix.induct with
  | case1 n =>
      intro hn _
      rw [insFix, maxUB_setBlack]
      exact hn
  | case2 n pIv pMx sib =>
      intro hn hf
      rw [insFix.eq_def]
      simp only [if_true]
      rw [maxUB_setBlack, plug_maxUB_iff]
      exact ⟨hn, hf⟩
  | case3 n pIv pMx sib gIv gMx gRed gq ul uiv umx ur ih =>
      intro hn hf
      obtain ⟨h1, h2, h3, h4, h5⟩ := hf
      obtain ⟨g1, g2, g3, g4, g5⟩ := h5
      rw [hiLe_node_iff] at g2 g3
      simp only [insFix]
      refine ih ?_ ?_
      · rw [maxUB_node_iff] at g4 ⊢
        refine ⟨g1, ?_, ?_, ?_, ?_⟩
        · rw [hiLe_node_iff]; exact ⟨g3.1, g3.2.1, g3.2.2⟩
        · rw [hiLe_node_iff]; exact ⟨g2.1, g2.2.1, g2.2.2⟩
        · rw [maxUB_node_iff]; exact ⟨h1, h3, h2, hn, h4⟩
        · rw [maxUB_node_iff]
          exact g4
      · refine fitsUB_of_inorder_eq gq g5 ?_
        simp [Tree.inorderL]
  | case4 n pIv pMx sib gIv gMx gRed gq gU hne =>
      intro hn hf
      obtain ⟨h1, h2, h3, h4, h5⟩ := hf
      obtain ⟨g1, g2, g3, g4, g5⟩ := h5
      rw [hiLe_node_iff] at g3
      rw [insFix.eq_def]
      simp only [if_true]
      have hred : ∀ (ul : Tree) (uiv : Interval) (umx : Int) (ur : Tree),
          gU = Tree.node ul uiv umx true ur → False := hne
      have hstep : maxUB (rotR (.node (.node n pIv pMx false sib) gIv gMx true gU))
          = true := by
        refine rotR_maxUB ?_
        rw [maxUB_node_iff]
        refine ⟨g1, ?_, g2, ?_, g4⟩
        · rw [hiLe_node_iff]; exact ⟨g3.1, g3.2.1, g3.2.2⟩
        · rw [maxUB_node_iff]; exact ⟨h1, h3, h2, hn, h4⟩
      cases gU with
      | nil =>
          rw [maxUB_setBlack, plug_maxUB_iff]
          refine ⟨hstep, fitsUB_of_inorder_eq gq g5 ?_⟩
          simp [rotR_inorderL, Tree.inorderL]
      | node ul uiv umx uc ur =>
          cases uc with
          | true => exact absurd rfl (hred ul uiv umx ur)
          | false =>
              rw [maxUB_setBlack, plug_maxUB_iff]
              refine ⟨hstep, fitsUB_of_inorder_eq gq g5 ?_⟩
              simp [rotR_inorderL, Tree.inorderL]
  | case5 n pIv pMx sib gIv gMx gRed gq ul uiv umx ur ih =>
      intro hn hf
      obtain ⟨h1, h2, h3, h4, h5⟩ := hf
      obtain ⟨g1, g2, g3, g4, g5⟩ := h5
      rw [hiLe_node_iff] at g2 g3
      simp only [insFix]
      refine ih ?_ ?_
      · rw [maxUB_node_iff] at g4 ⊢
        refine ⟨g1, ?_, ?_, ?_, ?_⟩
        · rw [hiLe_node_iff]; exact ⟨g2.1, g2.2.1, g2.2.2⟩
        · rw [hiLe_node_iff]; exact ⟨g3.1, g3.2.1, g3.2.2⟩
        · rw [maxUB_node_iff]
          exact g4
        · rw [maxUB_node_iff]; exact ⟨h1, h3, h2, hn, h4⟩
      · refine fitsUB_of_inorder_eq gq g5 ?_
        simp [Tree.inorderL]
  | case6 n pIv pMx sib gIv gMx gRed gq gL hne =>
      intro hn hf
      obtain ⟨h1, h2, h3, h4, h5⟩ := hf
      obtain ⟨g1, g2, g3, g4, g5⟩ := h5
      rw [hiLe_node_iff] at g3
      rw [insFix.eq_def]
      simp only [if_true]
      have hstep : maxUB (rotL (.node gL gIv gMx true
          ((rotR (.node n pIv pMx true sib)).setBlack))) = true := by
        refine rotL_maxUB ?_
        rw [maxUB_node_iff]
        refine ⟨g1, g2, ?_, g4, ?_⟩
        · rw [hiLe_setBlack, hiLe_of_inorder_eq (rotR_inorderL _)]
          rw [hiLe_node_iff]; exact ⟨g3.1, g3.2.1, g3.2.2⟩
        · rw [maxUB_setBlack]
          refine rotR_maxUB ?_
          rw [maxUB_node_iff]; exact ⟨h1, h3, h2, hn, h4⟩
      have hfit : fitsUB gq (rotL (.node gL gIv gMx true
          ((rotR (.node n pIv pMx true sib)).setBlack))) := by
        refine fitsUB_of_inorder_eq gq g5 ?_
        simp [rotL_inorderL, rotR_inorderL, setBlack_inorderL, Tree.inorderL]
      cases gL with
      | nil =>
          rw [maxUB_setBlack, plug_maxUB_iff]
          exact ⟨hstep, hfit⟩
      | node ul uiv umx uc ur =>
          cases uc with
          | true => exact absurd rfl (hne ul uiv umx ur)
          | false =>
              rw [maxUB_setBlack, plug_maxUB_iff]
              exact ⟨hstep, hfit⟩
  | case7 n pIv pMx pRed sib q hnr =>
      intro hn hf
      rw [insFix.eq_def]
      simp only [Bool.not_eq_true] at hnr
      subst hnr
      simp only [Bool.false_eq_true, if_false]
      rw [maxUB_setBlack, plug_maxUB_iff]
      exact ⟨hn, hf⟩
  | case8 n sib pIv pMx =>
      intro hn hf
      rw [insFix.eq_def]
      simp only [if_true]
      rw [maxUB_setBlack, plug_maxUB_iff]
      exact ⟨hn, hf⟩
  | case9 n sib pIv pMx gIv gMx gRed gq ul uiv umx ur ih =>
      intro hn hf
      obtain ⟨h1, h2, h3, h4, h5⟩ := hf
      obtain ⟨g1, g2, g3, g4, g5⟩ := h5
      rw [hiLe_node_iff] at g2 g3
      simp only [insFix]
      refine ih ?_ ?_
      · rw [maxUB_node_iff]
        refine ⟨g1, ?_, ?_, ?_, ?_⟩
        · rw [hiLe_node_iff]; exact ⟨g3.1, g3.2.1, g3.2.2⟩
        · rw [hiLe_node_iff]; exact ⟨g2.1, g2.2.1, g2.2.2⟩
        · rw [maxUB_node_iff]; exact ⟨h1, h2, h3, h4, hn⟩
        · rw [maxUB_node_iff] at g4 ⊢
          exact g4
      · refine fitsUB_of_inorder_eq gq g5 ?_
        simp [Tree.inorderL]
  | case10 n sib pIv pMx gIv gMx gRed gq gU hne =>
      intro hn hf
      obtain ⟨h1, h2, h3, h4, h5⟩ := hf
      obtain ⟨g1, g2, g3, g4, g5⟩ := h5
      rw [hiLe_node_iff] at g3
      rw [insFix.eq_def]
      simp only [if_true]
      have hstep : maxUB (rotR (.node ((rotL (.node sib pIv pMx true n)).setBlack)
          gIv gMx true gU)) = true := by
        refine rotR_maxUB ?_
        rw [maxUB_node_iff]
        refine ⟨g1, ?_, g2, ?_, g4⟩
        · rw [hiLe_setBlack, hiLe_of_inorder_eq (rotL_inorderL _)]
          rw [hiLe_node_iff]; exact ⟨g3.1, g3.2.1, g3.2.2⟩
        · rw [maxUB_setBlack]
          refine rotL_maxUB ?_
          rw [maxUB_node_iff]; exact ⟨h1, h2, h3, h4, hn⟩
      have hfit : fitsUB gq (rotR (.node ((rotL (.node sib pIv pMx true n)).setBlack)
          gIv gMx true gU)) := by
        refine fitsUB_of_inorder_eq gq g5 ?_
        simp [rotL_inorderL, rotR_inorderL, setBlack_inorderL, Tree.inorderL]
      cases gU with
      | nil =>
          rw [maxUB_setBlack, plug_maxUB_iff]
          exact ⟨hstep, hfit⟩
      | node ul uiv umx uc ur =>
          cases uc with
          | true => exact absurd rfl (hne ul uiv umx ur)
          | false =>
              rw [maxUB_setBlack, plug_maxUB_iff]
              exact ⟨hstep, hfit⟩
  | case11 n sib pIv pMx gIv gMx gRed gq ul uiv umx ur ih =>
      intro hn hf
      obtain ⟨h1, h2, h3, h4, h5⟩ := hf
      obtain ⟨g1, g2, g3, g4, g5⟩ := h5
      rw [hiLe_node_iff] at g2 g3
      simp only [insFix]
      refine ih ?_ ?_
      · rw [maxUB_node_iff]
        refine ⟨g1, ?_, ?_, ?_, ?_⟩
        · rw [hiLe_node_iff]; exact ⟨g2.1, g2.2.1, g2.2.2⟩
        · rw [hiLe_node_iff]; exact ⟨g3.1, g3.2.1, g3.2.2⟩
        · rw [maxUB_node_iff] at g4 ⊢
          exact g4
        · rw [maxUB_node_iff]; exact ⟨h1, h2, h3, h4, hn⟩
      · refine fitsUB_of_inorder_eq gq g5 ?_
        simp [Tree.inorderL]
  | case12 n sib pIv pMx gIv gMx gRed gq gL hne =>
      intro hn hf
      obtain ⟨h1, h2, h3, h4, h5⟩ := hf
      obtain ⟨g1, g2, g3, g4, g5⟩ := h5
      rw [hiLe_node_iff] at g3
      rw [insFix.eq_def]
      simp only [if_true]
      have hstep : maxUB (rotL (.node gL gIv gMx true
          (.node sib pIv pMx false n))) = true := by
        refine rotL_maxUB ?_
        rw [maxUB_node_iff]
        refine ⟨g1, g2, ?_, g4, ?_⟩
        · rw [hiLe_node_iff]; exact ⟨g3.1, g3.2.1, g3.2.2⟩
        · rw [maxUB_node_iff]; exact ⟨h1, h2, h3, h4, hn⟩
      have hfit : fitsUB gq (rotL (.node gL gIv gMx true
          (.node sib pIv pMx false n))) := by
        refine fitsUB_of_inorder_eq gq g5 ?_
        simp [rotL_inorderL, Tree.inorderL]
      cases gL with
      | nil =>
          rw [maxUB_setBlack, plug_maxUB_iff]
          exact ⟨hstep, hfit⟩
      | node ul uiv umx uc ur =>
          cases uc with
          | true => exact absurd rfl (hne ul uiv umx ur)
          | false =>
              rw [maxUB_setBlack, plug_maxUB_iff]
              exact ⟨hstep, hfit⟩
  | case13 n sib pIv pMx pRed q hnr =>
      intro hn hf
      rw [insFix.eq_def]
      simp only [Bool.not_eq_true] at hnr
      subst hnr
      simp only [Bool.false_eq_true, if_false]
      rw [maxUB_setBlack, plug_maxUB_iff]
      exact ⟨hn, hf⟩

theorem hiLe_node_mk {l r : Tree} {iv : Interval} {mx b : Int} {c : Bool}
    (h1 : iv.high ≤ b) (h2 : hiLe l b = true) (h3 : hiLe r b = true) :
    hiLe (.node l iv mx c r) b = true :=
  (hiLe_node_iff l iv mx c r b).mpr ⟨h1, h2, h3⟩

theorem maxUB_node_mk {l r : Tree} {iv : Interval} {mx : Int} {c : Bool}
    (h1 : iv.high ≤ mx) (h2 : hiLe l mx = true) (h3 : hiLe r mx = true)
    (h4 : maxUB l = true) (h5 : maxUB r = true) :
    maxUB (.node l iv mx c r) = true :=
  (maxUB_node_iff l iv mx c r).mpr ⟨h1, h2, h3, h4, h5⟩

theorem le_recompMax (h : Int) (l r : Tree) : h ≤ recompMax h l r := by
  rw [recompMax_eq_maxHLR]; exact le_maxHLR h l r

theorem hiLe_l_recompMax {l : Tree} (hl : maxUB l = true) (h : Int) (r : Tree) :
    hiLe l (recompMax h l r) = true := by
  rw [recompMax_eq_maxHLR]; exact hiLe_l_maxHLR hl h r

theorem hiLe_r_recompMax {r : Tree} (hr : maxUB r = true) (h : Int) (l : Tree) :
    hiLe r (recompMax h l r) = true := by
  rw [recompMax_eq_maxHLR]; exact hiLe_r_maxHLR hr h l

theorem hiLe_nil (b : Int) : hiLe .nil b = true := rfl

theorem maxUB_nil : maxUB .nil = true := rfl

theorem hiLe_trans_eq {t u : Tree} (he : t.inorderL = u.inorderL) {b : Int}
    (h : hiLe u b = true) : hiLe t b = true := by
  rw [hiLe_of_inorder_eq he]; exact h

theorem delFix_maxUB : ∀ (x : Tree) (p : Path),
    maxUB x = true → fitsUB p x → maxUB (delFix x p) = true := by
  intro x p
  induction x, p using delFix.induct with
  | case1 x =>
      intro hn _
      simp only [delFix, Bool.false_eq_true, eq_self_iff_true, if_false, if_true]
      rw [maxUB_setBlack]
      exact hn
  | case2 p hne =>
      intro hn hf
      cases p with
      | root => exact absurd rfl hne
      | inl fiv fmx fred fsib fq =>
          simp only [delFix, Bool.false_eq_true, eq_self_iff_true, if_false, if_true]
          rw [plug_maxUB_iff]
          exact ⟨maxUB_nil, hf⟩
      | inr fsib fiv fmx fred fq =>
          simp only [delFix, Bool.false_eq_true, eq_self_iff_true, if_false, if_true]
          rw [plug_maxUB_iff]
          exact ⟨maxUB_nil, hf⟩
  | case3 xl xiv xmx xr p hne =>
      intro hn hf
      cases p with
      | root => exact absurd rfl hne
      | inl fiv fmx fred fsib fq =>
          simp only [delFix, Bool.false_eq_true, eq_self_iff_true, if_false, if_true]
          rw [plug_maxUB_iff]
          exact ⟨hn, fitsUB_of_inorder_eq _ hf rfl⟩
      | inr fsib fiv fmx fred fq =>
          simp only [delFix, Bool.false_eq_true, eq_self_iff_true, if_false, if_true]
          rw [plug_maxUB_iff]
          exact ⟨hn, fitsUB_of_inorder_eq _ hf rfl⟩
  | case4 xl xiv xmx xr pIv pMx pRed q x ih =>
      intro hn hf
      obtain ⟨f1, f2, f3, f4, f5⟩ := hf
      simp only [delFix, Bool.false_eq_true, eq_self_iff_true, if_false, if_true]
      exact ih (maxUB_node_mk f1 f3 (hiLe_nil pMx) hn maxUB_nil) f5
  | case5 xl xiv xmx xr pIv pMx pRed q wiv wmx wr =>
      intro hn hf
      obtain ⟨f1, f2, f3, f4, f5⟩ := hf
      obtain ⟨f21, f22, f23⟩ := (hiLe_node_iff _ _ _ _ _ _).mp f2
      obtain ⟨f41, f42, f43, f44, f45⟩ := (maxUB_node_iff _ _ _ _ _).mp f4
      simp only [delFix, Bool.false_eq_true, eq_self_iff_true, if_false, if_true]
      rw [plug_maxUB_iff]
      refine ⟨maxUB_node_mk (le_recompMax _ _ _) (hiLe_l_recompMax hn _ _)
        (hiLe_nil _) hn maxUB_nil, f21, f23, hiLe_node_mk f1 f3 (hiLe_nil _),
        f45, ?_⟩
      refine fitsUB_of_inorder_eq q f5 ?_
      simp [Tree.inorderL]
  | case6 xl xiv xmx xr pIv pMx pRed q wiv wmx wr al aiv amx ac bl biv bmx br =>
      intro hn hf
      obtain ⟨f1, f2, f3, f4, f5⟩ := hf
      obtain ⟨f21, f22, f23⟩ := (hiLe_node_iff _ _ _ _ _ _).mp f2
      obtain ⟨f41, f42, f43, f44, f45⟩ := (maxUB_node_iff _ _ _ _ _).mp f4
      obtain ⟨g1, g2, g3, g4, g5⟩ := (maxUB_node_iff _ _ _ _ _).mp f44
      obtain ⟨g31, g32, g33⟩ := (hiLe_node_iff _ _ _ _ _ _).mp g3
      obtain ⟨e1, e2, e3, e4, e5⟩ := (maxUB_node_iff _ _ _ _ _).mp g5
      simp only [delFix, Bool.false_eq_true, eq_self_iff_true, if_false, if_true]
      rw [maxUB_setBlack, plug_maxUB_iff]
      refine ⟨?_, f21, f23, ?_, f45, ?_⟩
      · refine rotL_maxUB (maxUB_node_mk (le_recompMax _ _ _)
          (hiLe_l_recompMax hn _ _) ?_ hn ?_)
        · exact hiLe_trans_eq rfl (hiLe_r_recompMax f44 pIv.high _)
        · exact maxUB_node_mk g1 g2 (hiLe_node_mk g31 g32 g33) g4
            (maxUB_node_mk e1 e2 e3 e4 e5)
      · rw [hiLe_of_inorder_eq (rotL_inorderL _)]
        exact hiLe_node_mk f1 f3 (hiLe_trans_eq rfl f22)
      · refine fitsUB_of_inorder_eq q f5 ?_
        simp [rotL_inorderL, Tree.inorderL]
  | case7 xl xiv xmx xr pIv pMx pRed q wiv wmx wr aiv amx ac ar har bl biv bmx br =>
      intro hn hf
      obtain ⟨f1, f2, f3, f4, f5⟩ := hf
      obtain ⟨f21, f22, f23⟩ := (hiLe_node_iff _ _ _ _ _ _).mp f2
      obtain ⟨f41, f42, f43, f44, f45⟩ := (maxUB_node_iff _ _ _ _ _).mp f4
      obtain ⟨g1, g2, g3, g4, g5⟩ := (maxUB_node_iff _ _ _ _ _).mp f44
      obtain ⟨g21, g22, g23⟩ := (hiLe_node_iff _ _ _ _ _ _).mp g2
      obtain ⟨e1, e2, e3, e4, e5⟩ := (maxUB_node_iff _ _ _ _ _).mp g4
      simp only [delFix, Bool.false_eq_true, eq_self_iff_true, if_false, if_true]
      rw [maxUB_setBlack, plug_maxUB_iff]
      refine ⟨?_, f21, f23, ?_, f45, ?_⟩
      · refine rotL_maxUB (maxUB_node_mk (le_recompMax _ _ _)
          (hiLe_l_recompMax hn _ _) ?_ hn ?_)
        · exact hiLe_trans_eq (by simp [Tree.inorderL])
            (hiLe_r_recompMax f44 pIv.high _)
        · refine maxUB_node_mk g21 g22 ?_ e4 ?_
          · exact hiLe_node_mk g1 g23 g3
          · exact maxUB_node_mk (le_recompMax _ _ _) (hiLe_l_recompMax e5 _ _)
              (hiLe_r_recompMax g5 _ _) e5 g5
      · rw [hiLe_of_inorder_eq (rotL_inorderL _)]
        refine hiLe_node_mk f1 f3 (hiLe_trans_eq (by simp [Tree.inorderL]) f22)
      · refine fitsUB_of_inorder_eq q f5 ?_
        simp [rotL_inorderL, Tree.inorderL]
  | case8 xl xiv xmx xr pIv pMx pRed q wiv wmx wr aiv amx ac ar har al hal =>
      intro hn hf
      obtain ⟨f1, f2, f3, f4, f5⟩ := hf
      obtain ⟨f21, f22, f23⟩ := (hiLe_node_iff _ _ _ _ _ _).mp f2
      obtain ⟨f41, f42, f43, f44, f45⟩ := (maxUB_node_iff _ _ _ _ _).mp f4
      simp only [delFix, Bool.false_eq_true, eq_self_iff_true, if_false, if_true]
      rw [plug_maxUB_iff]
      refine ⟨maxUB_node_mk (le_recompMax _ _ _) (hiLe_l_recompMax hn _ _)
        (hiLe_trans_eq rfl (hiLe_r_recompMax f44 pIv.high _)) hn
        (by exact f44), f21, f23, hiLe_node_mk f1 f3 (hiLe_trans_eq rfl f22),
        f45, ?_⟩
      refine fitsUB_of_inorder_eq q f5 ?_
      simp [Tree.inorderL]
  | case9 xl xiv xmx xr pIv pMx pRed q wl wiv wmx wc hwc bl biv bmx br =>
      intro hn hf
      simp only [Bool.not_eq_true] at hwc
      subst hwc
      obtain ⟨f1, f2, f3, f4, f5⟩ := hf
      obtain ⟨f21, f22, f23⟩ := (hiLe_node_iff _ _ _ _ _ _).mp f2
      obtain ⟨f41, f42, f43, f44, f45⟩ := (maxUB_node_iff _ _ _ _ _).mp f4
      obtain ⟨e1, e2, e3, e4, e5⟩ := (maxUB_node_iff _ _ _ _ _).mp f45
      obtain ⟨d1, d2, d3⟩ := (hiLe_node_iff _ _ _ _ _ _).mp f43
      simp only [delFix, Bool.false_eq_true, eq_self_iff_true, if_false, if_true]
      rw [maxUB_setBlack, plug_maxUB_iff]
      constructor
      · refine rotL_maxUB (maxUB_node_mk f1 f3 f2 hn ?_)
        refine maxUB_node_mk f41 f42 ?_ f44 ?_
        · exact hiLe_node_mk d1 d2 d3
        · exact maxUB_node_mk e1 e2 e3 e4 e5
      · refine fitsUB_of_inorder_eq q f5 ?_
        simp [rotL_inorderL, Tree.inorderL]
  | case10 xl xiv xmx xr pIv pMx pRed q wiv wmx wc hwc wr hwr bl biv bmx br =>
      intro hn hf
      simp only [Bool.not_eq_true] at hwc
      subst hwc
      obtain ⟨f1, f2, f3, f4, f5⟩ := hf
      obtain ⟨f21, f22, f23⟩ := (hiLe_node_iff _ _ _ _ _ _).mp f2
      obtain ⟨f41, f42, f43, f44, f45⟩ := (maxUB_node_iff _ _ _ _ _).mp f4
      obtain ⟨e1, e2, e3, e4, e5⟩ := (maxUB_node_iff _ _ _ _ _).mp f44
      obtain ⟨d1, d2, d3⟩ := (hiLe_node_iff _ _ _ _ _ _).mp f42
      simp only [delFix, Bool.false_eq_true, eq_self_iff_true, if_false, if_true]
      rw [maxUB_setBlack, plug_maxUB_iff]
      constructor
      · refine rotL_maxUB (maxUB_node_mk f1 f3 ?_ hn ?_)
        · exact hiLe_trans_eq (by simp [Tree.inorderL]) f2
        · refine maxUB_node_mk d1 d2 ?_ e4 ?_
          · exact hiLe_node_mk f41 d3 f43
          · exact maxUB_node_mk (le_recompMax _ _ _) (hiLe_l_recompMax e5 _ _)
              (hiLe_r_recompMax f45 _ _) e5 f45
      · refine fitsUB_of_inorder_eq q f5 ?_
        first
          | rfl
          | simp [rotL_inorderL, Tree.inorderL]
  | case11 xl xiv xmx xr pIv pMx pRed q x wiv wmx wc hwc wr hwr wl hwl ih =>
      intro hn hf
      simp only [Bool.not_eq_true] at hwc
      subst hwc
      obtain ⟨f1, f2, f3, f4, f5⟩ := hf
      simp only [delFix, Bool.false_eq_true, eq_self_iff_true, if_false, if_true]
      refine ih (maxUB_node_mk f1 f3 (hiLe_trans_eq rfl f2) hn (by exact f4)) ?_
      exact fitsUB_of_inorder_eq q f5 rfl
  | case12 xl xiv xmx xr pIv pMx pRed q x ih =>
      intro hn hf
      obtain ⟨f1, f2, f3, f4, f5⟩ := hf
      simp only [delFix, Bool.false_eq_true, eq_self_iff_true, if_false, if_true]
      exact ih (maxUB_node_mk f1 (hiLe_nil pMx) f3 maxUB_nil hn) f5
  | case13 xl xiv xmx xr pIv pMx pRed q wl wiv wmx =>
      intro hn hf
      obtain ⟨f1, f2, f3, f4, f5⟩ := hf
      obtain ⟨f21, f22, f23⟩ := (hiLe_node_iff _ _ _ _ _ _).mp f2
      obtain ⟨f41, f42, f43, f44, f45⟩ := (maxUB_node_iff _ _ _ _ _).mp f4
      simp only [delFix, Bool.false_eq_true, eq_self_iff_true, if_false, if_true]
      rw [plug_maxUB_iff]
      refine ⟨maxUB_node_mk (le_recompMax _ _ _) (hiLe_nil _)
        (hiLe_r_recompMax hn _ _) maxUB_nil hn, f21, f22,
        hiLe_node_mk f1 (hiLe_nil _) f3, f44, ?_⟩
      refine fitsUB_of_inorder_eq q f5 ?_
      simp [Tree.inorderL]
  | case14 xl xiv xmx xr pIv pMx pRed q wl wiv wmx aiv amx ac ar bl biv bmx br =>
      intro hn hf
      obtain ⟨f1, f2, f3, f4, f5⟩ := hf
      obtain ⟨f21, f22, f23⟩ := (hiLe_node_iff _ _ _ _ _ _).mp f2
      obtain ⟨f41, f42, f43, f44, f45⟩ := (maxUB_node_iff _ _ _ _ _).mp f4
      obtain ⟨g1, g2, g3, g4, g5⟩ := (maxUB_node_iff _ _ _ _ _).mp f45
      obtain ⟨g21, g22, g23⟩ := (hiLe_node_iff _ _ _ _ _ _).mp g2
      obtain ⟨e1, e2, e3, e4, e5⟩ := (maxUB_node_iff _ _ _ _ _).mp g4
      simp only [delFix, Bool.false_eq_true, eq_self_iff_true, if_false, if_true]
      rw [maxUB_setBlack, plug_maxUB_iff]
      refine ⟨?_, f21, f22, ?_, f44, ?_⟩
      · refine rotR_maxUB (maxUB_node_mk (le_recompMax _ _ _) ?_
          (hiLe_r_recompMax hn _ _) ?_ hn)
        · exact hiLe_trans_eq rfl (hiLe_l_recompMax f45 pIv.high _)
        · exact maxUB_node_mk g1 (hiLe_node_mk g21 g22 g23) g3
            (maxUB_node_mk e1 e2 e3 e4 e5) g5
      · rw [hiLe_of_inorder_eq (rotR_inorderL _)]
        exact hiLe_node_mk f1 (hiLe_trans_eq rfl f23) f3
      · refine fitsUB_of_inorder_eq q f5 ?_
        simp [rotR_inorderL, Tree.inorderL]
  | case15 xl xiv xmx xr pIv pMx pRed q wl wiv wmx aiv amx ac al hal bl biv bmx br =>
      intro hn hf
      obtain ⟨f1, f2, f3, f4, f5⟩ := hf
      obtain ⟨f21, f22, f23⟩ := (hiLe_node_iff _ _ _ _ _ _).mp f2
      obtain ⟨f41, f42, f43, f44, f45⟩ := (maxUB_node_iff _ _ _ _ _).mp f4
      obtain ⟨g1, g2, g3, g4, g5⟩ := (maxUB_node_iff _ _ _ _ _).mp f45
      obtain ⟨g31, g32, g33⟩ := (hiLe_node_iff _ _ _ _ _ _).mp g3
      obtain ⟨e1, e2, e3, e4, e5⟩ := (maxUB_node_iff _ _ _ _ _).mp g5
      simp only [delFix, Bool.false_eq_true, eq_self_iff_true, if_false, if_true]
      rw [maxUB_setBlack, plug_maxUB_iff]
      refine ⟨?_, f21, f22, ?_, f44, ?_⟩
      · refine rotR_maxUB (maxUB_node_mk (le_recompMax _ _ _) ?_
          (hiLe_r_recompMax hn _ _) ?_ hn)
        · exact hiLe_trans_eq (by simp [Tree.inorderL])
            (hiLe_l_recompMax f45 pIv.high _)
        · refine maxUB_node_mk g31 ?_ g33 ?_ e5
          · exact hiLe_node_mk g1 g2 g32
          · exact maxUB_node_mk (le_recompMax _ _ _) (hiLe_l_recompMax g4 _ _)
              (hiLe_r_recompMax e4 _ _) g4 e4
      · rw [hiLe_of_inorder_eq (rotR_inorderL _)]
        exact hiLe_node_mk f1 (hiLe_trans_eq (by simp [Tree.inorderL]) f23) f3
      · refine fitsUB_of_inorder_eq q f5 ?_
        simp [rotR_inorderL, Tree.inorderL]
  | case16 xl xiv xmx xr pIv pMx pRed q wl wiv wmx aiv amx ac al hal ar har =>
      intro hn hf
      obtain ⟨f1, f2, f3, f4, f5⟩ := hf
      obtain ⟨f21, f22, f23⟩ := (hiLe_node_iff _ _ _ _ _ _).mp f2
      obtain ⟨f41, f42, f43, f44, f45⟩ := (maxUB_node_iff _ _ _ _ _).mp f4
      simp only [delFix, Bool.false_eq_true, eq_self_iff_true, if_false, if_true]
      rw [plug_maxUB_iff]
      refine ⟨maxUB_node_mk (le_recompMax _ _ _)
        (hiLe_trans_eq rfl (hiLe_l_recompMax f45 pIv.high _))
        (hiLe_r_recompMax hn _ _) (by exact f45) hn, f21, f22,
        hiLe_node_mk f1 (hiLe_trans_eq rfl f23) f3, f44, ?_⟩
      refine fitsUB_of_inorder_eq q f5 ?_
      simp [Tree.inorderL]
  | case17 xl xiv xmx xr pIv pMx pRed q wiv wmx wc wr hwc bl biv bmx br =>
      intro hn hf
      simp only [Bool.not_eq_true] at hwc
      subst hwc
      obtain ⟨f1, f2, f3, f4, f5⟩ := hf
      obtain ⟨f21, f22, f23⟩ := (hiLe_node_iff _ _ _ _ _ _).mp f2
      obtain ⟨f41, f42, f43, f44, f45⟩ := (maxUB_node_iff _ _ _ _ _).mp f4
      obtain ⟨e1, e2, e3, e4, e5⟩ := (maxUB_node_iff _ _ _ _ _).mp f44
      obtain ⟨d1, d2, d3⟩ := (hiLe_node_iff _ _ _ _ _ _).mp f42
      simp only [delFix, Bool.false_eq_true, eq_self_iff_true, if_false, if_true]
      rw [maxUB_setBlack, plug_maxUB_iff]
      constructor
      · refine rotR_maxUB (maxUB_node_mk f1 f2 f3 ?_ hn)
        refine maxUB_node_mk f41 ?_ f43 ?_ f45
        · exact hiLe_node_mk d1 d2 d3
        · exact maxUB_node_mk e1 e2 e3 e4 e5
      · refine fitsUB_of_inorder_eq q f5 ?_
        simp [rotR_inorderL, Tree.inorderL]
  | case18 xl xiv xmx xr pIv pMx pRed q wiv wmx wc hwc wl hwl bl biv bmx br =>
      intro hn hf
      simp only [Bool.not_eq_true] at hwc
      subst hwc
      obtain ⟨f1, f2, f3, f4, f5⟩ := hf
      obtain ⟨f21, f22, f23⟩ := (hiLe_node_iff _ _ _ _ _ _).mp f2
      obtain ⟨f41, f42, f43, f44, f45⟩ := (maxUB_node_iff _ _ _ _ _).mp f4
      obtain ⟨e1, e2, e3, e4, e5⟩ := (maxUB_node_iff _ _ _ _ _).mp f45
      obtain ⟨d1, d2, d3⟩ := (hiLe_node_iff _ _ _ _ _ _).mp f43
      simp only [delFix, Bool.false_eq_true, eq_self_iff_true, if_false, if_true]
      rw [maxUB_setBlack, plug_maxUB_iff]
      constructor
      · refine rotR_maxUB (maxUB_node_mk f1 ?_ f3 ?_ hn)
        · exact hiLe_trans_eq (by simp [Tree.inorderL]) f2
        · refine maxUB_node_mk d1 ?_ d3 ?_ e5
          · exact hiLe_node_mk f41 f42 d2
          · exact maxUB_node_mk (le_recompMax _ _ _) (hiLe_l_recompMax f44 _ _)
              (hiLe_r_recompMax e4 _ _) f44 e4
      · refine fitsUB_of_inorder_eq q f5 ?_
        first
          | rfl
          | simp [rotR_inorderL, Tree.inorderL]
  | case19 xl xiv xmx xr pIv pMx pRed q x wiv wmx wc hwc wr hwr wl hwl ih =>
      intro hn hf
      simp only [Bool.not_eq_true] at hwc
      subst hwc
      obtain ⟨f1, f2, f3, f4, f5⟩ := hf
      simp only [delFix, Bool.false_eq_true, eq_self_iff_true, if_false, if_true]
      refine ih (maxUB_node_mk f1 (hiLe_trans_eq rfl f2) f3 (by exact f4) hn) ?_
      exact fitsUB_of_inorder_eq q f5 rfl

theorem hiLe_self_mx {l r : Tree} {iv : Interval} {mx : Int} {c : Bool}
    (h : maxUB (.node l iv mx c r) = true) : hiLe (.node l iv mx c r) mx = true := by
  obtain ⟨h1, h2, h3, _, _⟩ := (maxUB_node_iff _ _ _ _ _).mp h
  exact hiLe_node_mk h1 h2 h3

theorem refreshAbove_maxUB {t : Tree} (h : maxUB t = true) :
    maxUB (refreshAbove t) = true := by
  induction t with
  | nil => exact h
  | node l iv mx c r ihl ihr =>
      cases l with
      | nil => exact h
      | node ll liv lmx lc lr =>
          obtain ⟨h1, h2, h3, h4, h5⟩ := (maxUB_node_iff _ _ _ _ _).mp h
          simp only [refreshAbove]
          exact maxUB_node_mk (le_maxHLR _ _ _) (hiLe_l_maxHLR (ihl h4) _ _)
            (hiLe_r_maxHLR h5 _ _) (ihl h4) h5

theorem mxOr_le_maxHLR (c : Tree) (h : Int) (r : Tree) (b : Int)
    (hb : maxHLR h c r ≤ b) : c.mxOr b ≤ b := by
  cases c with
  | nil => exact le_refl b
  | node cl civ cmx cc cr =>
      refine le_trans (le_trans ?_ hb) (le_refl b)
      simp only [maxHLR, childMaxStd]
      exact le_trans (le_max_right h cmx) (le_childMaxStd _ r)

theorem refreshPath_fits : ∀ (p : Path) (z c n : Tree), fitsUB p z →
    (∀ b : Int, c.mxOr b ≤ b → hiLe n b = true) →
    fitsUB (refreshPath c p) n := by
  intro p
  induction p with
  | root => intro z c n _ _; trivial
  | inl iv mx red sib q ih =>
      intro z c n hf hn
      obtain ⟨z1, z2, z3, z4, z5⟩ := hf
      refine ⟨le_maxHLR _ _ _, hiLe_r_maxHLR z4 _ _,
        hn _ (mxOr_le_maxHLR c iv.high sib _ (le_refl _)), z4, ?_⟩
      refine ih (.node z iv mx red sib) _ _ z5 ?_
      intro b hb
      simp only [Tree.mxOr] at hb
      refine hiLe_node_mk (le_trans (le_maxHLR _ _ _) hb) ?_ ?_
      · exact hn b (mxOr_le_maxHLR c iv.high sib b hb)
      · exact hiLe_mono hb (hiLe_r_maxHLR z4 _ _)
  | inr sib iv mx red q ih =>
      intro z c n hf hn
      obtain ⟨z1, z2, z3, z4, z5⟩ := hf
      have hcmx : ∀ b : Int, maxHLR iv.high sib c ≤ b → c.mxOr b ≤ b := by
        intro b hb
        cases c with
        | nil => exact le_refl _
        | node cl civ cmx cc cr =>
            refine le_trans ?_ hb
            simp only [maxHLR, childMaxStd, Tree.mxOr]
            exact le_max_right _ _
      refine ⟨le_maxHLR _ _ _, hiLe_l_maxHLR z4 _ _,
        hn _ (hcmx _ (le_refl _)), z4, ?_⟩
      refine ih (.node sib iv mx red z) _ _ z5 ?_
      intro b hb
      simp only [Tree.mxOr] at hb
      refine hiLe_node_mk (le_trans (le_maxHLR _ _ _) hb) ?_ ?_
      · exact hiLe_mono hb (hiLe_l_maxHLR z4 _ _)
      · exact hn b (hcmx b hb)

theorem minIv_mem {t : Tree} (h : t ≠ .nil) : minIv t ∈ t.inorderL := by
  rw [minIv_cons h]
  exact List.mem_cons_self _ _

theorem delMin_fits : ∀ (t : Tree) (p : Path), maxUB t = true → fitsUB p t →
    maxUB (delMin t p).1 = true ∧ fitsUB (delMin t p).2 (delMin t p).1 := by
  intro t
  induction t with
  | nil => intro p h hf; exact ⟨h, hf⟩
  | node l iv mx c r ihl ihr =>
      intro p h hf
      obtain ⟨h1, h2, h3, h4, h5⟩ := (maxUB_node_iff _ _ _ _ _).mp h
      cases l with
      | nil =>
          simp only [delMin]
          refine ⟨h5, fitsUB_mono p hf ?_⟩
          intro b hb
          exact ((hiLe_node_iff _ _ _ _ _ _).mp hb).2.2
      | node ll liv lmx lc lr =>
          simp only [delMin]
          exact ihl _ h4 ⟨h1, h3, h2, h5, hf⟩

theorem ite_fix_maxUB {b : Bool} {x : Tree} {q : Path}
    (hx : maxUB x = true) (hq : fitsUB q x) :
    maxUB (if b then Tree.plug x q else delFix x q) = true := by
  split
  · exact (plug_maxUB_iff q x).mpr ⟨hx, hq⟩
  · exact delFix_maxUB x q hx hq

theorem removeAt_maxUB {z : Tree} {p : Path} (h : maxUB (Tree.plug z p) = true) :
    maxUB (removeAt z p) = true := by
  obtain ⟨hz, hfit⟩ := (plug_maxUB_iff p z).mp h
  cases z with
  | nil => simpa [removeAt] using h
  | node L ziv zmx zc R =>
    obtain ⟨hz1, hz2, hz3, hz4, hz5⟩ := (maxUB_node_iff _ _ _ _ _).mp hz
    cases L with
    | nil =>
      cases R with
      | nil =>
          simp only [removeAt]
          refine ite_fix_maxUB maxUB_nil ?_
          refine refreshPath_fits p _ _ _ hfit ?_
          intro b _
          exact hiLe_nil b
      | node rl riv rmx rc rr =>
          simp only [removeAt]
          refine ite_fix_maxUB hz5 ?_
          refine refreshPath_fits p _ _ _ hfit ?_
          intro b hb
          simp only [Tree.mxOr] at hb
          exact hiLe_mono hb (hiLe_self_mx hz5)
    | node ll liv lmx lc lr =>
      cases R with
      | nil =>
          simp only [removeAt]
          refine ite_fix_maxUB hz4 ?_
          refine refreshPath_fits p _ _ _ hfit ?_
          intro b hb
          simp only [Tree.mxOr] at hb
          exact hiLe_mono hb (hiLe_self_mx hz4)
      | node rl riv rmx rc rr =>
          simp only [removeAt]
          have hR2 : maxUB (refreshAbove (.node rl riv rmx rc rr)) = true :=
            refreshAbove_maxUB hz5
          have hR2le : hiLe (refreshAbove (.node rl riv rmx rc rr))
              (maxHLR ziv.high (.node ll liv lmx lc lr)
                (refreshAbove (.node rl riv rmx rc rr))) = true :=
            hiLe_r_maxHLR hR2 _ _
          have hLle : hiLe (.node ll liv lmx lc lr)
              (maxHLR ziv.high (.node ll liv lmx lc lr)
                (refreshAbove (.node rl riv rmx rc rr))) = true :=
            hiLe_l_maxHLR hz4 _ _
          have hyiv : (minIv (refreshAbove (.node rl riv rmx rc rr))).high ≤
              maxHLR ziv.high (.node ll liv lmx lc lr)
                (refreshAbove (.node rl riv rmx rc rr)) := by
            have hm := minIv_mem (refreshAbove_ne_nil rl riv rmx rc rr)
            exact (hiLe_iff_mem _ _).mp hR2le _ hm
          have hfits0 : fitsUB (Path.inr (.node ll liv lmx lc lr)
              (minIv (refreshAbove (.node rl riv rmx rc rr)))
              (maxHLR ziv.high (.node ll liv lmx lc lr)
                (refreshAbove (.node rl riv rmx rc rr))) zc
              (refreshPath (.node (.node ll liv lmx lc lr) ziv
                (maxHLR ziv.high (.node ll liv lmx lc lr)
                  (refreshAbove (.node rl riv rmx rc rr))) zc
                (refreshAbove (.node rl riv rmx rc rr))) p))
              (refreshAbove (.node rl riv rmx rc rr)) := by
            refine ⟨hyiv, hLle, hR2le, hz4, ?_⟩
            refine refreshPath_fits p _ _ _ hfit ?_
            intro b hb
            simp only [Tree.mxOr] at hb
            exact hiLe_node_mk (le_trans hyiv hb) (hiLe_mono hb hLle)
              (hiLe_mono hb hR2le)
          have hd := delMin_fits _ _ hR2 hfits0
          exact ite_fix_maxUB hd.1 hd.2

theorem hiLe_insNaive {t : Tree} {iv : Interval} {b : Int} :
    hiLe (insNaive t iv) b = true ↔ iv.high ≤ b ∧ hiLe t b = true := by
  rw [hiLe_iff_mem, hiLe_iff_mem]
  constructor
  · intro h
    refine ⟨h iv ((insNaive_perm t iv).mem_iff.mpr (List.mem_cons_self _ _)), ?_⟩
    intro jv hj
    exact h jv ((insNaive_perm t iv).mem_iff.mpr (List.mem_cons_of_mem _ hj))
  · rintro ⟨h1, h2⟩ jv hj
    rcases List.mem_cons.mp ((insNaive_perm t iv).mem_iff.mp hj) with rfl | hj'
    · exact h1
    · exact h2 jv hj'

theorem insNaive_maxUB {t : Tree} (h : maxUB t = true) (iv : Interval) :
    maxUB (insNaive t iv) = true := by
  induction t with
  | nil => exact maxUB_node_mk (le_refl _) (hiLe_nil _) (hiLe_nil _) maxUB_nil maxUB_nil
  | node l niv nmx nc r ihl ihr =>
      obtain ⟨h1, h2, h3, h4, h5⟩ := (maxUB_node_iff _ _ _ _ _).mp h
      by_cases hc : iv.low < niv.low
      · simp only [insNaive, hc, if_pos]
        refine maxUB_node_mk (le_trans h1 (le_max_left _ _)) ?_
          (hiLe_mono (le_max_left _ _) h3) (ihl h4) h5
        exact hiLe_insNaive.mpr ⟨le_max_right _ _, hiLe_mono (le_max_left _ _) h2⟩
      · simp only [insNaive, hc, if_neg, ite_false]
        refine maxUB_node_mk (le_trans h1 (le_max_left _ _))
          (hiLe_mono (le_max_left _ _) h2) ?_ h4 (ihr h5)
        exact hiLe_insNaive.mpr ⟨le_max_right _ _, hiLe_mono (le_max_left _ _) h3⟩

theorem insertT_maxUB {t : Tree} (h : maxUB t = true) (iv : Interval) :
    maxUB (insertT t iv) = true := by
  have hplug : maxUB (Tree.plug (insLocAux t iv .root).1 (insLocAux t iv .root).2)
      = true := by
    rw [insLoc_plug]
    exact insNaive_maxUB h iv
  obtain ⟨h1, h2⟩ := (plug_maxUB_iff _ _).mp hplug
  exact insFix_maxUB _ _ h1 h2

theorem reach_maxUB {t : Tree} (h : Reach t) : maxUB t = true := by
  induction h with
  | empty => rfl
  | ins t iv _ ih => exact insertT_maxUB ih iv
  | rem z p _ ih => exact removeAt_maxUB ih

/-! ### Walk lemmas -/

theorem walk_sublist (t : Tree) (q : Interval) : (walk t q).Sublist t.inorderL := by
  induction t with
  | nil => simp [walk, Tree.inorderL]
  | node l iv mx c r ihl ihr =>
      simp only [walk]
      have e2 : (Tree.node l iv mx c r).inorderL =
          (l.inorderL ++ [iv]) ++ r.inorderL := by
        simp [Tree.inorderL]
      rw [e2]
      refine List.Sublist.append (List.Sublist.append ?_ ?_) ?_
      · split
        · exact ihl
        · exact List.nil_sublist _
      · split
        · exact List.Sublist.refl _
        · exact List.nil_sublist _
      · split
        · exact ihr
        · exact List.nil_sublist _

theorem walk_overlap {t : Tree} {q jv : Interval} (h : jv ∈ walk t q) :
    jv.overlap q = true := by
  induction t with
  | nil => simp [walk] at h
  | node l iv mx c r ihl ihr =>
      simp only [walk, List.mem_append] at h
      rcases h with (h | h) | h
      · split at h
        · exact ihl h
        · simp at h
      · split at h
        · rcases List.mem_singleton.mp h with rfl
          assumption
        · simp at h
      · split at h
        · exact ihr h
        · simp at h

theorem walk_complete {t : Tree} {q : Interval} (hub : maxUB t = true) :
    ∀ jv ∈ t.inorderL, jv.low ≤ q.high → q.low < jv.high → jv ∈ walk t q := by
  induction t with
  | nil => simp [Tree.inorderL]
  | node l iv mx c r ihl ihr =>
      obtain ⟨h1, h2, h3, h4, h5⟩ := (maxUB_node_iff _ _ _ _ _).mp hub
      intro jv hjv hlo hhi
      simp only [Tree.inorderL, List.mem_append, List.mem_cons] at hjv
      simp only [walk, List.mem_append]
      rcases hjv with hjl | rfl | hjr
      · refine Or.inl (Or.inl ?_)
        cases l with
        | nil => simp [Tree.inorderL] at hjl
        | node ll liv lmx lc lr =>
            have hle : jv.high ≤ lmx :=
              (hiLe_iff_mem _ _).mp (hiLe_self_mx h4) _ hjl
            have hstep : stepOK q (Tree.node ll liv lmx lc lr) = true := by
              simp [stepOK]
              exact lt_of_lt_of_le hhi hle
            rw [if_pos hstep]
            exact ihl h4 jv hjl hlo hhi
      · refine Or.inl (Or.inr ?_)
        have hov : jv.overlap q = true := by
          simp [Interval.overlap]
          exact ⟨hlo, le_of_lt hhi⟩
        rw [if_pos hov]
        exact List.mem_singleton.mpr rfl
      · refine Or.inr ?_
        cases r with
        | nil => simp [Tree.inorderL] at hjr
        | node rl riv rmx rc rr =>
            have hle : jv.high ≤ rmx :=
              (hiLe_iff_mem _ _).mp (hiLe_self_mx h5) _ hjr
            have hstep : stepOK q (Tree.node rl riv rmx rc rr) = true := by
              simp [stepOK]
              exact lt_of_lt_of_le hhi hle
            rw [if_pos hstep]
            exact ihr h5 jv hjr hlo hhi

theorem insLoc_newNode (t : Tree) (iv : Interval) (p : Path) :
    (insLocAux t iv p).1 = .node .nil iv iv.high true .nil := by
  induction t generalizing p with
  | nil => rfl
  | node l niv nmx nc r ihl ihr =>
      simp only [insLocAux]
      by_cases h : iv.low < niv.low
      · simp [h, ihl]
      · simp [h, ihr]

theorem insLoc_pathHiGe (t : Tree) (iv : Interval) (p : Path)
    (hp : pathHiGe p iv.high = true) :
    pathHiGe (insLocAux t iv p).2 iv.high = true := by
  induction t generalizing p with
  | nil => exact hp
  | node l niv nmx nc r ihl ihr =>
      simp only [insLocAux]
      by_cases h : iv.low < niv.low
      · simp only [h, if_pos]
        refine ihl _ ?_
        simp [pathHiGe, hp, le_max_right]
      · simp only [h, if_neg, ite_false]
        refine ihr _ ?_
        simp [pathHiGe, hp, le_max_right]

theorem insLoc_descOk (t : Tree) (iv : Interval) (p : Path)
    (hp : descOk iv p = true) :
    descOk iv (insLocAux t iv p).2 = true := by
  induction t generalizing p with
  | nil => exact hp
  | node l niv nmx nc r ihl ihr =>
      simp only [insLocAux]
      by_cases h : iv.low < niv.low
      · simp only [h, if_pos]
        refine ihl _ ?_
        simp [descOk, hp, h]
      · simp only [h, if_neg, ite_false]
        refine ihr _ ?_
        simp [descOk, hp, h]

/-! ### Frame lemma for the max refresh -/

theorem eraseMax_plug_refresh : ∀ (p : Path) (a b c : Tree),
    eraseMax a = eraseMax b →
    eraseMax (Tree.plug a (refreshPath c p)) = eraseMax (Tree.plug b p) := by
  intro p
  induction p with
  | root => intro a b c h; exact h
  | inl iv mx red sib q ih =>
      intro a b c h
      simp only [refreshPath, Tree.plug]
      refine ih _ _ _ ?_
      simp only [eraseMax, h]
  | inr sib iv mx red q ih =>
      intro a b c h
      simp only [refreshPath, Tree.plug]
      refine ih _ _ _ ?_
      simp only [eraseMax, h]

theorem searchF_eq : ∀ (fuel : Nat) (t : Tree) (q : Interval),
    heightT t < fuel → searchF fuel t q = some (search t q) := by
  intro fuel
  induction fuel with
  | zero => intro t q h; exact absurd h (Nat.not_lt_zero _)
  | succ f ih =>
      intro t q h
      cases t with
      | nil => rfl
      | node l iv mx c r =>
          have h2 : heightT l < f ∧ heightT r < f := by
            simp only [heightT] at h
            omega
          cases l with
          | nil =>
              rw [searchF, search]
              by_cases ho : iv.overlap q = true
              · simp [ho]
              · simp only [ho, Bool.false_eq_true, if_false]
                exact ih r q h2.2
          | node ll liv lmx lc lr =>
              rw [searchF, search]
              by_cases ho : iv.overlap q = true
              · simp [ho]
              · by_cases hm : q.low ≤ lmx
                · simp only [ho, hm, Bool.false_eq_true, if_false, if_true]
                  exact ih _ q h2.1
                · simp only [ho, hm, Bool.false_eq_true, if_false]
                  exact ih r q h2.2

theorem insFixF_eq (n : Tree) (p : Path) : ∀ (fuel : Nat), Path.len p < fuel →
    insFixF fuel n p = some (insFix n p) := by
  induction n, p using insFix.induct with
  | case1 n =>
      intro fuel hf
      obtain ⟨f, rfl⟩ : ∃ f, fuel = f + 1 := ⟨fuel - 1, by omega⟩
      rfl
  | case2 n pIv pMx sib =>
      intro fuel hf
      obtain ⟨f, rfl⟩ : ∃ f, fuel = f + 1 := ⟨fuel - 1, by omega⟩
      rfl
  | case3 n pIv pMx sib gIv gMx gRed gq ul uiv umx ur ih =>
      intro fuel hf
      obtain ⟨f, rfl⟩ : ∃ f, fuel = f + 1 := ⟨fuel - 1, by omega⟩
      exact ih f (by simp only [Path.len] at hf ⊢; omega)
  | case4 n pIv pMx sib gIv gMx gRed gq gU hne =>
      intro fuel hf
      obtain ⟨f, rfl⟩ : ∃ f, fuel = f + 1 := ⟨fuel - 1, by omega⟩
      cases gU with
      | nil => rfl
      | node u1 u2 u3 uc u4 =>
          cases uc with
          | false => rfl
          | true => exact absurd rfl (hne u1 u2 u3 u4)
  | case5 n pIv pMx sib gIv gMx gRed gq ul uiv umx ur ih =>
      intro fuel hf
      obtain ⟨f, rfl⟩ : ∃ f, fuel = f + 1 := ⟨fuel - 1, by omega⟩
      exact ih f (by simp only [Path.len] at hf ⊢; omega)
  | case6 n pIv pMx sib gIv gMx gRed gq gL hne =>
      intro fuel hf
      obtain ⟨f, rfl⟩ : ∃ f, fuel = f + 1 := ⟨fuel - 1, by omega⟩
      cases gL with
      | nil => rfl
      | node u1 u2 u3 uc u4 =>
          cases uc with
          | false => rfl
          | true => exact absurd rfl (hne u1 u2 u3 u4)
  | case7 n pIv pMx pRed sib q hnr =>
      intro fuel hf
      obtain ⟨f, rfl⟩ : ∃ f, fuel = f + 1 := ⟨fuel - 1, by omega⟩
      cases pRed with
      | false =>
          rw [insFix.eq_def]
          simp [insFixF]
      | true => exact absurd rfl hnr
  | case8 n sib pIv pMx =>
      intro fuel hf
      obtain ⟨f, rfl⟩ : ∃ f, fuel = f + 1 := ⟨fuel - 1, by omega⟩
      rfl
  | case9 n sib pIv pMx gIv gMx gRed gq ul uiv umx ur ih =>
      intro fuel hf
      obtain ⟨f, rfl⟩ : ∃ f, fuel = f + 1 := ⟨fuel - 1, by omega⟩
      exact ih f (by simp only [Path.len] at hf ⊢; omega)
  | case10 n sib pIv pMx gIv gMx gRed gq gU hne =>
      intro fuel hf
      obtain ⟨f, rfl⟩ : ∃ f, fuel = f + 1 := ⟨fuel - 1, by omega⟩
      cases gU with
      | nil => rfl
      | node u1 u2 u3 uc u4 =>
          cases uc with
          | false => rfl
          | true => exact absurd rfl (hne u1 u2 u3 u4)
  | case11 n sib pIv pMx gIv gMx gRed gq ul uiv umx ur ih =>
      intro fuel hf
      obtain ⟨f, rfl⟩ : ∃ f, fuel = f + 1 := ⟨fuel - 1, by omega⟩
      exact ih f (by simp only [Path.len] at hf ⊢; omega)
  | case12 n sib pIv pMx gIv gMx gRed gq gL hne =>
      intro fuel hf
      obtain ⟨f, rfl⟩ : ∃ f, fuel = f + 1 := ⟨fuel - 1, by omega⟩
      cases gL with
      | nil => rfl
      | node u1 u2 u3 uc u4 =>
          cases uc with
          | false => rfl
          | true => exact absurd rfl (hne u1 u2 u3 u4)
  | case13 n sib pIv pMx pRed q hnr =>
      intro fuel hf
      obtain ⟨f, rfl⟩ : ∃ f, fuel = f + 1 := ⟨fuel - 1, by omega⟩
      cases pRed with
      | false =>
          rw [insFix.eq_def]
          simp [insFixF]
      | true => exact absurd rfl hnr

theorem delFixF_eq (x : Tree) (p : Path) : ∀ (fuel : Nat), Path.len p + 2 ≤ fuel →
    delFixF fuel x p = some (delFix x p) := by
  induction x, p using delFix.induct with
  | case1 x =>
      intro fuel hf
      obtain ⟨f, rfl⟩ : ∃ f, fuel = f + 1 := ⟨fuel - 1, by omega⟩
      cases x with
      | nil => rfl
      | node a b c d e => cases d <;> rfl
  | case2 p hne =>
      intro fuel hf
      obtain ⟨f, rfl⟩ : ∃ f, fuel = f + 1 := ⟨fuel - 1, by omega⟩
      cases p <;> rfl
  | case3 xl xiv xmx xr p hne =>
      intro fuel hf
      obtain ⟨f, rfl⟩ : ∃ f, fuel = f + 1 := ⟨fuel - 1, by omega⟩
      cases p <;> rfl
  | case4 xl xiv xmx xr pIv pMx pRed q x ih =>
      intro fuel hf
      obtain ⟨f, rfl⟩ : ∃ f, fuel = f + 1 := ⟨fuel - 1, by omega⟩
      exact ih f (by simp only [Path.len] at hf ⊢; omega)
  | case5 xl xiv xmx xr pIv pMx pRed q wiv wmx wr =>
      intro fuel hf
      obtain ⟨f, rfl⟩ : ∃ f, fuel = f + 1 := ⟨fuel - 1, by omega⟩
      obtain ⟨g, rfl⟩ : ∃ g, f = g + 1 := ⟨f - 1, by omega⟩
      rfl
  | case6 xl xiv xmx xr pIv pMx pRed q wiv wmx wr al aiv amx ac bl biv bmx br =>
      intro fuel hf
      obtain ⟨f, rfl⟩ : ∃ f, fuel = f + 1 := ⟨fuel - 1, by omega⟩
      simp [delFixF, delFix, notRed]
  | case7 xl xiv xmx xr pIv pMx pRed q wiv wmx wr aiv amx ac ar har bl biv bmx br =>
      intro fuel hf
      obtain ⟨f, rfl⟩ : ∃ f, fuel = f + 1 := ⟨fuel - 1, by omega⟩
      cases ar with
      | nil => simp [delFixF, delFix, notRed]
      | node t1 t2 t3 t4 t5 =>
          cases t4 with
          | false => simp [delFixF, delFix, notRed]
          | true => exact absurd rfl (har t1 t2 t3 t5)
  | case8 xl xiv xmx xr pIv pMx pRed q wiv wmx wr aiv amx ac ar har al hal =>
      intro fuel hf
      obtain ⟨f, rfl⟩ : ∃ f, fuel = f + 1 := ⟨fuel - 1, by omega⟩
      obtain ⟨g, rfl⟩ : ∃ g, f = g + 1 := ⟨f - 1, by omega⟩
      cases al with
      | nil =>
          cases ar with
          | nil => simp [delFixF, delFix, notRed]
          | node s1 s2 s3 s4 s5 =>
              cases s4 with
              | false => simp [delFixF, delFix, notRed]
              | true => exact absurd rfl (har s1 s2 s3 s5)
      | node t1 t2 t3 t4 t5 =>
          cases t4 with
          | true => exact absurd rfl (hal t1 t2 t3 t5)
          | false =>
              cases ar with
              | nil => simp [delFixF, delFix, notRed]
              | node s1 s2 s3 s4 s5 =>
                  cases s4 with
                  | false => simp [delFixF, delFix, notRed]
                  | true => exact absurd rfl (har s1 s2 s3 s5)
  | case9 xl xiv xmx xr pIv pMx pRed q wl wiv wmx wc hwc bl biv bmx br =>
      intro fuel hf
      obtain ⟨f, rfl⟩ : ∃ f, fuel = f + 1 := ⟨fuel - 1, by omega⟩
      cases wc with
      | true => exact absurd rfl hwc
      | false => simp [delFixF, delFix, notRed]
  | case10 xl xiv xmx xr pIv pMx pRed q wiv wmx wc hwc wr hwr bl biv bmx br =>
      intro fuel hf
      obtain ⟨f, rfl⟩ : ∃ f, fuel = f + 1 := ⟨fuel - 1, by omega⟩
      cases wc with
      | true => exact absurd rfl hwc
      | false =>
          cases wr with
          | nil => simp [delFixF, delFix, notRed]
          | node t1 t2 t3 t4 t5 =>
              cases t4 with
              | false => simp [delFixF, delFix, notRed]
              | true => exact absurd rfl (hwr t1 t2 t3 t5)
  | case11 xl xiv xmx xr pIv pMx pRed q x wiv wmx wc hwc wr hwr wl hwl ih =>
      intro fuel hf
      obtain ⟨f, rfl⟩ : ∃ f, fuel = f + 1 := ⟨fuel - 1, by omega⟩
      cases wc with
      | true => exact absurd rfl hwc
      | false =>
          have hlen : Path.len q + 2 ≤ f := by
            simp only [Path.len] at hf
            omega
          cases wl with
          | nil =>
              cases wr with
              | nil =>
                  simp only [delFixF, delFix, notRed, Bool.and_self, if_true]
                  exact ih f hlen
              | node s1 s2 s3 s4 s5 =>
                  cases s4 with
                  | false =>
                      simp only [delFixF, delFix, notRed, Bool.not_false,
                        Bool.and_self, if_true]
                      exact ih f hlen
                  | true => exact absurd rfl (hwr s1 s2 s3 s5)
          | node t1 t2 t3 t4 t5 =>
              cases t4 with
              | true => exact absurd rfl (hwl t1 t2 t3 t5)
              | false =>
                  cases wr with
                  | nil =>
                      simp only [delFixF, delFix, notRed, Bool.not_false,
                        Bool.and_self, if_true]
                      exact ih f hlen
                  | node s1 s2 s3 s4 s5 =>
                      cases s4 with
                      | false =>
                          simp only [delFixF, delFix, notRed, Bool.not_false,
                            Bool.and_self, if_true]
                          exact ih f hlen
                      | true => exact absurd rfl (hwr s1 s2 s3 s5)
  | case12 xl xiv xmx xr pIv pMx pRed q x ih =>
      intro fuel hf
      obtain ⟨f, rfl⟩ : ∃ f, fuel = f + 1 := ⟨fuel - 1, by omega⟩
      exact ih f (by simp only [Path.len] at hf ⊢; omega)
  | case13 xl xiv xmx xr pIv pMx pRed q wl wiv wmx =>
      intro fuel hf
      obtain ⟨f, rfl⟩ : ∃ f, fuel = f + 1 := ⟨fuel - 1, by omega⟩
      obtain ⟨g, rfl⟩ : ∃ g, f = g + 1 := ⟨f - 1, by omega⟩
      rfl
  | case14 xl xiv xmx xr pIv pMx pRed q wl wiv wmx aiv amx ac ar bl biv bmx br =>
      intro fuel hf
      obtain ⟨f, rfl⟩ : ∃ f, fuel = f + 1 := ⟨fuel - 1, by omega⟩
      simp [delFixF, delFix, notRed]
  | case15 xl xiv xmx xr pIv pMx pRed q wl wiv wmx aiv amx ac al hal bl biv bmx br =>
      intro fuel hf
      obtain ⟨f, rfl⟩ : ∃ f, fuel = f + 1 := ⟨fuel - 1, by omega⟩
      cases al with
      | nil => simp [delFixF, delFix, notRed]
      | node t1 t2 t3 t4 t5 =>
          cases t4 with
          | false => simp [delFixF, delFix, notRed]
          | true => exact absurd rfl (hal t1 t2 t3 t5)
  | case16 xl xiv xmx xr pIv pMx pRed q wl wiv wmx aiv amx ac al hal ar har =>
      intro fuel hf
      obtain ⟨f, rfl⟩ : ∃ f, fuel = f + 1 := ⟨fuel - 1, by omega⟩
      obtain ⟨g, rfl⟩ : ∃ g, f = g + 1 := ⟨f - 1, by omega⟩
      cases al with
      | nil =>
          cases ar with
          | nil => simp [delFixF, delFix, notRed]
          | node s1 s2 s3 s4 s5 =>
              cases s4 with
              | false => simp [delFixF, delFix, notRed]
              | true => exact absurd rfl (har s1 s2 s3 s5)
      | node t1 t2 t3 t4 t5 =>
          cases t4 with
          | true => exact absurd rfl (hal t1 t2 t3 t5)
          | false =>
              cases ar with
              | nil => simp [delFixF, delFix, notRed]
              | node s1 s2 s3 s4 s5 =>
                  cases s4 with
                  | false => simp [delFixF, delFix, notRed]
                  | true => exact absurd rfl (har s1 s2 s3 s5)
  | case17 xl xiv xmx xr pIv pMx pRed q wiv wmx wc wr hwc bl biv bmx br =>
      intro fuel hf
      obtain ⟨f, rfl⟩ : ∃ f, fuel = f + 1 := ⟨fuel - 1, by omega⟩
      cases wc with
      | true => exact absurd rfl hwc
      | false => simp [delFixF, delFix, notRed]
  | case18 xl xiv xmx xr pIv pMx pRed q wiv wmx wc hwc wl hwl bl biv bmx br =>
      intro fuel hf
      obtain ⟨f, rfl⟩ : ∃ f, fuel = f + 1 := ⟨fuel - 1, by omega⟩
      cases wc with
      | true => exact absurd rfl hwc
      | false =>
          cases wl with
          | nil => simp [delFixF, delFix, notRed]
          | node t1 t2 t3 t4 t5 =>
              cases t4 with
              | false => simp [delFixF, delFix, notRed]
              | true => exact absurd rfl (hwl t1 t2 t3 t5)
  | case19 xl xiv xmx xr pIv pMx pRed q x wiv wmx wc hwc wr hwr wl hwl ih =>
      intro fuel hf
      obtain ⟨f, rfl⟩ : ∃ f, fuel = f + 1 := ⟨fuel - 1, by omega⟩
      cases wc with
      | true => exact absurd rfl hwc
      | false =>
          have hlen : Path.len q + 2 ≤ f := by
            simp only [Path.len] at hf
            omega
          cases wl with
          | nil =>
              cases wr with
              | nil =>
                  simp only [delFixF, delFix, notRed, Bool.and_self, if_true]
                  exact ih f hlen
              | node s1 s2 s3 s4 s5 =>
                  cases s4 with
                  | false =>
                      simp only [delFixF, delFix, notRed, Bool.not_false,
                        Bool.and_self, if_true]
                      exact ih f hlen
                  | true => exact absurd rfl (hwr s1 s2 s3 s5)
          | node t1 t2 t3 t4 t5 =>
              cases t4 with
              | true => exact absurd rfl (hwl t1 t2 t3 t5)
              | false =>
                  cases wr with
                  | nil =>
                      simp only [delFixF, delFix, notRed, Bool.not_false,
                        Bool.and_self, if_true]
                      exact ih f hlen
                  | node s1 s2 s3 s4 s5 =>
                      cases s4 with
                      | false =>
                          simp only [delFixF, delFix, notRed, Bool.not_false,
                            Bool.and_self, if_true]
                          exact ih f hlen
                      | true => exact absurd rfl (hwr s1 s2 s3 s5)

/-- `rb_delete_fixup` on a null `x` leaves the tree as plugged (the loop
guard at line 244 is false and the final blackening at lines 307-309 is
skipped). -/
theorem delFix_nil (p : Path) : delFix .nil p = Tree.plug .nil p := by
  cases p <;> rfl

/-- `search` only ever returns an overlapping interval: whichever node it
stops at was accepted by the overlap test of line 157. -/
theorem search_sound : ∀ (t : Tree) (q iv : Interval),
    search t q = some iv → iv.overlap q = true := by
  intro t
  induction t with
  | nil => intro q iv h; simp [search] at h
  | node l niv nmx nc r ihl ihr =>
      intro q iv h
      cases l with
      | nil =>
          rw [search] at h
          by_cases ho : niv.overlap q = true
          · rw [if_pos ho] at h
            obtain rfl := Option.some.inj h
            exact ho
          · rw [if_neg ho] at h
            exact ihr q iv h
      | node ll liv lmx lc lr =>
          rw [search] at h
          by_cases ho : niv.overlap q = true
          · rw [if_pos ho] at h
            obtain rfl := Option.some.inj h
            exact ho
          · rw [if_neg ho] at h
            by_cases hm : q.low ≤ lmx
            · rw [if_pos hm] at h
              exact ihl q iv h
            · rw [if_neg hm] at h
              exact ihr q iv h

/-! ### The claims -/

/-- Claim C1: "For every tree reachable from the empty tree by any sequence
of insert and remove operations, the red-black invariants hold after each
operation: the root is black, no red node has a red child, and every path
from the root to an absent leaf passes through the same number of black
nodes."  Refuted: removing the childless black node (15,15) from a
four-node reachable tree passes a null replacement `x` to
`rb_delete_fixup`, whose loop guard `while (x && ...)` (line 244) is then
false, so no rebalancing happens and the resulting reachable tree violates
black-height uniformity. -/
theorem C1_rb_invariants_fail :
    ∃ t : Tree, Reach t ∧ (rootBlack t && noRedRed t && bhOk t) = false := by
  refine ⟨T1post, Reach.rem zRem1 pRem1 ?_, by decide⟩
  have h : Tree.plug zRem1 pRem1 = T1pre := by decide
  rw [h]
  exact Reach.ins _ _ (Reach.ins _ _ (Reach.ins _ _ (Reach.ins _ _
    Reach.empty)))

/-- Claim C1, concrete counterexample: before the removal the black-height
invariant holds; after removing (15,15) it does not, while the root is still
black and no red-red violation exists. -/
theorem C1_counterexample :
    Tree.plug zRem1 pRem1 = T1pre ∧ bhOk T1pre = true ∧ bhOk T1post = false ∧
    rootBlack T1post = true ∧ noRedRed T1post = true := by decide

/-- Claim C2: "For every tree reachable from the empty tree by any sequence
of insert and remove operations, after each operation every node's max field
equals the exact maximum of its own interval's high endpoint and the high
endpoints of all intervals in its subtree."  Refuted: removing a node with
two children runs the bottom-up refresh of lines 193-202 while the removed
node is still linked, so line 194 resets `z->max_` from z's own high, and
line 205 copies that value onto the successor; the successor then stores a
max no interval in its subtree attains. -/
theorem C2_max_exact_fail : ∃ t : Tree, Reach t ∧ maxExact t = false := by
  refine ⟨T2post, Reach.rem T2pre .root ?_, by decide⟩
  exact Reach.ins _ _ (Reach.ins _ _ (Reach.ins _ _ Reach.empty))

/-- Claim C2, concrete counterexample: the three-insert tree satisfies max
exactness; after removing its two-child root (5,100) the successor (7,7)
carries `max_ = 100` although the exact subtree maximum is 7 (the field is
still an upper bound). -/
theorem C2_counterexample :
    maxExact T2pre = true ∧ maxExact T2post = false ∧ maxUB T2post = true := by
  decide

/-- Claim C3: "search(q) returns a handle to some node whose stored interval
overlaps q whenever at least one node in the tree overlaps q, and returns
null whenever no node overlaps q; any non-null node it returns overlaps q."
The soundness half holds (first conjunct), but the completeness half is
refuted: on a reachable tree whose successor kept a stale inflated max after
a two-child removal, `search` is lured into the left subtree and returns
null although (15,40) overlaps the query. -/
theorem C3_search_contract :
    (∀ (t : Tree) (q iv : Interval), search t q = some iv →
      iv.overlap q = true) ∧
    ∃ (t : Tree) (q : Interval), Reach t ∧
      (∃ jv ∈ t.inorderL, jv.overlap q = true) ∧ search t q = none := by
  refine ⟨search_sound, T3post, q3, Reach.rem zRem3 pRem3 ?_,
    ⟨⟨15, 40⟩, by decide, by decide⟩, by decide⟩
  have h : Tree.plug zRem3 pRem3 = T3pre := by decide
  rw [h]
  exact Reach.ins _ _ (Reach.ins _ _ (Reach.ins _ _ (Reach.ins _ _
    (Reach.ins _ _ Reach.empty))))

/-- Claim C3, witness for the soundness conjunct at a concrete input. -/
theorem C3_witness : Interval.overlap ⟨1, 2⟩ ⟨2, 3⟩ = true :=
  C3_search_contract.1 (insertT .nil ⟨1, 2⟩) ⟨2, 3⟩ ⟨1, 2⟩ (by decide)

/-- Claim C3, concrete counterexample: the reachable tree `T3post` has the
overlapping interval (15,40) for query (12,30), yet `search` returns null. -/
theorem C3_counterexample :
    (⟨15, 40⟩ : Interval) ∈ T3post.inorderL ∧
    Interval.overlap ⟨15, 40⟩ q3 = true ∧ search T3post q3 = none := by decide

/-- Claim C4 (amended): the walk-all-overlaps operation, modelled from the
spec (the class of interval_tree.hpp lines 38-71 has no such member),
visits a subsequence of the in-order traversal (so each node at most once,
in ascending key order), visits only nodes whose interval overlaps the
query, and, on every reachable tree, visits every stored interval `jv` with
`jv.low ≤ q.high` and `q.low < jv.high`.  The spec's original "exactly the
set of overlapping intervals" is refuted by `C4_counterexample`: the strict
`<` pruning skips boundary overlaps with `q.low = jv.high`. -/
theorem C4_walk_exact :
    (∀ (t : Tree) (q : Interval), (walk t q).Sublist t.inorderL) ∧
    (∀ (t : Tree) (q jv : Interval), jv ∈ walk t q → jv.overlap q = true) ∧
    (∀ (t : Tree) (q jv : Interval), Reach t → jv ∈ t.inorderL →
      jv.low ≤ q.high → q.low < jv.high → jv ∈ walk t q) :=
  ⟨walk_sublist, fun _ _ _ h => walk_overlap h,
   fun _ _ jv hr hm h1 h2 => walk_complete (reach_maxUB hr) jv hm h1 h2⟩

/-- Claim C4, witness: the conditional completeness conjunct applied at a
concrete reachable tree, query and interval. -/
theorem C4_witness : (⟨0, 5⟩ : Interval) ∈ walk (insertT .nil ⟨0, 5⟩) ⟨1, 2⟩ :=
  C4_walk_exact.2.2 (insertT .nil ⟨0, 5⟩) ⟨1, 2⟩ ⟨0, 5⟩
    (Reach.ins _ _ Reach.empty) (by decide) (by decide) (by decide)

/-- Claim C4, concrete counterexample to the original wording: in the
two-insert tree, (0,5) overlaps the query (5,9) (they share the point 5),
but the walk prunes the left subtree because `5 < 5` fails and never visits
it. -/
theorem C4_counterexample :
    (⟨0, 5⟩ : Interval) ∈ T4.inorderL ∧ Interval.overlap ⟨0, 5⟩ q4 = true ∧
    walk T4 q4 = [⟨5, 6⟩] := by decide

/-- Claim C5: "For every tree produced from the empty tree by any sequence
of insert and remove operations, an in-order traversal visits the stored
intervals in non-decreasing order of their low endpoints."  Confirmed (the
traversal is modelled as the pure function `Tree.inorderL`, so it cannot
mutate the tree). -/
theorem C5_inorder_sorted (t : Tree) (hr : Reach t) :
    (keysL t).Sorted (· ≤ ·) :=
  reach_sorted hr

/-- Claim C5, witness at a concrete two-insert tree. -/
theorem C5_witness :
    (keysL (insertT (insertT .nil ⟨3, 4⟩) ⟨1, 2⟩)).Sorted (· ≤ ·) :=
  C5_inorder_sorted _ (Reach.ins _ _ (Reach.ins _ _ Reach.empty))

/-- Claim C6: "insert allocates a new node colored red whose max field is
initialized to the interval's own high endpoint, descends from the root
comparing low endpoints with ties going right, updates every visited
ancestor's max to be at least the new interval's high endpoint, links the
new node at the found position (or as root of an empty tree), and always
succeeds."  Confirmed: the descent returns exactly the new red node with
`max_ = high`, every comparison on the recorded path went left on
strictly-less and right otherwise, every frame of the path has
`max_ ≥ high`, plugging the new node into the path links it at the found
position (equal to the plain recursive insertion), and `insert` is the
total function running the insert fixup from there. -/
theorem C6_insert_contract : ∀ (t : Tree) (iv : Interval),
    (insLocAux t iv .root).1 = .node .nil iv iv.high true .nil ∧
    descOk iv (insLocAux t iv .root).2 = true ∧
    pathHiGe (insLocAux t iv .root).2 iv.high = true ∧
    Tree.plug (insLocAux t iv .root).1 (insLocAux t iv .root).2 =
      insNaive t iv ∧
    insertT t iv = insFix (insLocAux t iv .root).1 (insLocAux t iv .root).2 :=
  fun t iv => ⟨insLoc_newNode t iv .root, insLoc_descOk t iv .root rfl,
    insLoc_pathHiGe t iv .root rfl, insLoc_plug t iv .root, rfl⟩

/-- Claim C7: "Calling remove with the null handle is a no-op: it returns
without error and leaves the tree completely unchanged."  Confirmed: lines
168-170 return at once, so the tree rebuilt around the absent node is
exactly the original tree, with every node, link, color and max field
intact. -/
theorem C7_remove_null : ∀ (p : Path), removeAt .nil p = Tree.plug .nil p :=
  fun _ => rfl

/-- Claim C8: "Every public operation terminates; in particular the
rb_insert_fixup, rb_delete_fixup, and search loops always terminate."
Confirmed: each loop, transcribed with an explicit fuel counter of one unit
per iteration, finishes (returns `some`) within `height + 1` iterations for
`search`, `depth + 1` for the insert fixup, and `depth + 2` for the delete
fixup, on every input - and computes the same result as the structurally
recursive models used everywhere else in this development.  (insert, remove
and the in-order traversal are total structurally recursive functions in
this embedding.) -/
theorem C8_loops_terminate :
    (∀ (t : Tree) (q : Interval),
      searchF (heightT t + 1) t q = some (search t q)) ∧
    (∀ (n : Tree) (p : Path),
      insFixF (Path.len p + 1) n p = some (insFix n p)) ∧
    (∀ (x : Tree) (p : Path),
      delFixF (Path.len p + 2) x p = some (delFix x p)) :=
  ⟨fun t q => searchF_eq (heightT t + 1) t q (Nat.lt_succ_self _),
   fun n p => insFixF_eq n p (Path.len p + 1) (Nat.lt_succ_self _),
   fun x p => delFixF_eq x p (Path.len p + 2) (le_refl _)⟩

/-- Claim C9 (amended): for every reachable tree, every node's max field is
an upper bound on the high endpoints of all intervals in its subtree, and
this weaker invariant is preserved by both rotations.  The original claim's
final clause, that the upper-bound invariant "is what makes search never
miss an existing overlap", is refuted by `C9_counterexample`: a reachable
tree satisfies the upper-bound invariant yet `search` misses an existing
overlap (completeness needs exactness, which `C2_max_exact_fail` shows is
violated). -/
theorem C9_max_upper_bound :
    (∀ t : Tree, Reach t → maxUB t = true) ∧
    (∀ t : Tree, maxUB t = true →
      maxUB (rotL t) = true ∧ maxUB (rotR t) = true) :=
  ⟨fun _ h => reach_maxUB h, fun _ h => ⟨rotL_maxUB h, rotR_maxUB h⟩⟩

/-- Claim C9, witness: both conjuncts applied at a concrete reachable
tree. -/
theorem C9_witness : maxUB (insertT .nil ⟨1, 2⟩) = true ∧
    maxUB (rotL (insertT .nil ⟨1, 2⟩)) = true :=
  ⟨C9_max_upper_bound.1 _ (Reach.ins _ _ Reach.empty),
   (C9_max_upper_bound.2 _
     (C9_max_upper_bound.1 _ (Reach.ins _ _ Reach.empty))).1⟩

/-- Claim C9, concrete counterexample to the dropped clause: `T3post`
satisfies the upper-bound invariant, yet `search` misses the overlapping
interval (15,40). -/
theorem C9_counterexample :
    maxUB T3post = true ∧ search T3post q3 = none ∧
    Interval.overlap ⟨15, 40⟩ q3 = true ∧
    (⟨15, 40⟩ : Interval) ∈ T3post.inorderL := by decide

/-- Claim C10: "When remove deletes a node that is spliced out with no
replacement child (x is the absent leaf), rb_delete_fixup returns
immediately and no recoloring or rotation happens anywhere: apart from
unlinking the removed node and recomputing ancestor max fields, the colors
and links of all remaining nodes are unchanged."  Confirmed for the direct
splice of a childless node, either color: erasing the max fields, the
result is exactly the original tree with the node replaced by the absent
leaf. -/
theorem C10_null_fixup_frame : ∀ (ziv : Interval) (zmx : Int) (zc : Bool)
    (p : Path),
    eraseMax (removeAt (.node .nil ziv zmx zc .nil) p) =
      eraseMax (Tree.plug .nil p) := by
  intro ziv zmx zc p
  cases zc with
  | true =>
      simp only [removeAt, if_true]
      exact eraseMax_plug_refresh p .nil .nil _ rfl
  | false =>
      simp only [removeAt, Bool.false_eq_true, if_false]
      rw [delFix_nil]
      exact eraseMax_plug_refresh p .nil .nil _ rfl

end ITree
